import Mathlib

/-!
Verification of the scope-isolated dynamic entity registry
(`MikroOrmProvider` and its helpers) of the pluxel-template repository.

The definitions below are a shallow embedding of the TypeScript source:

* `lookupA` / `setA` / `delA` — JavaScript `Map` operations on association
  lists (`Map.set` replaces an existing key in place, `Map.delete` removes
  the unique entry for a key).
* `scopePfx` / `getScopePfx` — the `scopePrefix` / `getScopePrefix`
  functions (sanitising regex replace, SHA-1 digest suffix, per-state memo
  cache).
* `Schema` / `rewriteMeta` / `rewriteSchemaIn` — `EntitySchema` metadata and
  the `rewriteSchema` clone-and-rename transform, with an explicit store to
  capture the JavaScript heap aliasing facts.
* `PState` and the operations `registerEntityFor`, `releaseEntity`,
  `initStep`, `stopStep`, `stopStepCore`, `migrateFor` — the catalog state
  machine of `SharedState` and its serialised mutators.
* `QState` / `qstep` — the `SerialQueue` (reentrant mutual-exclusion queue)
  as a small-step scheduler over arrival / dispatch / resume events.
-/

namespace Pluxel

/-! ## Association lists as JavaScript `Map`s -/

/-- Keys of an association list. -/
def keysA (m : List (String × α)) : List String := m.map Prod.fst

/-- `Map.get` -/
def lookupA (m : List (String × α)) (k : String) : Option α :=
  match m with
  | [] => none
  | (k', v) :: rest => if k' = k then some v else lookupA rest k

/-- `Map.set`: replace in place if the key exists, else append. -/
def setA (m : List (String × α)) (k : String) (v : α) : List (String × α) :=
  match m with
  | [] => [(k, v)]
  | (k', v') :: rest => if k' = k then (k, v) :: rest else (k', v') :: setA rest k v

/-- `Map.delete`: remove the first (with `Nodup` keys, the unique) entry. -/
def delA (m : List (String × α)) (k : String) : List (String × α) :=
  match m with
  | [] => []
  | (k', v') :: rest => if k' = k then rest else (k', v') :: delA rest k

theorem keysA_nil : keysA ([] : List (String × α)) = [] := rfl

theorem keysA_cons (p : String × α) (m : List (String × α)) :
    keysA (p :: m) = p.1 :: keysA m := rfl

theorem mem_keysA_of_mem {m : List (String × α)} {p : String × α}
    (h : p ∈ m) : p.1 ∈ keysA m := List.mem_map.mpr ⟨p, h, rfl⟩

theorem lookupA_eq_none_iff {m : List (String × α)} {k : String} :
    lookupA m k = none ↔ k ∉ keysA m := by
  induction m with
  | nil => simp [lookupA, keysA]
  | cons p rest ih =>
    obtain ⟨k', v⟩ := p
    rw [keysA_cons, List.mem_cons]
    by_cases h : k' = k
    · subst h
      simp [lookupA]
    · have h2 : lookupA ((k', v) :: rest) k = lookupA rest k := by
        simp [lookupA, h]
      rw [h2, ih]
      constructor
      · intro hk hor
        rcases hor with h1 | h1
        · exact h h1.symm
        · exact hk h1
      · intro hk h1
        exact hk (Or.inr h1)

theorem lookupA_mem {m : List (String × α)} {k : String} {v : α}
    (h : lookupA m k = some v) : (k, v) ∈ m := by
  induction m with
  | nil => simp [lookupA] at h
  | cons p rest ih =>
    obtain ⟨k', v'⟩ := p
    by_cases hk : k' = k
    · subst hk
      simp [lookupA] at h
      simp [h]
    · simp [lookupA, hk] at h
      exact List.mem_cons_of_mem _ (ih h)

theorem mem_lookupA {m : List (String × α)} {k : String} {v : α}
    (hnd : (keysA m).Nodup) (h : (k, v) ∈ m) : lookupA m k = some v := by
  induction m with
  | nil => simp at h
  | cons p rest ih =>
    obtain ⟨k', v'⟩ := p
    rw [keysA_cons] at hnd
    have hnd1 := (List.nodup_cons.mp hnd).1
    have hnd2 := (List.nodup_cons.mp hnd).2
    rcases List.mem_cons.mp h with h1 | h2
    · cases h1
      simp [lookupA]
    · have hk : k' ≠ k := by
        intro hkk
        apply hnd1
        have hp : (k, v).1 ∈ keysA rest := mem_keysA_of_mem h2
        rwa [hkk]
      simp only [lookupA, if_neg hk]
      exact ih hnd2 h2

theorem lookupA_isSome_of_mem_keys {m : List (String × α)} {k : String}
    (h : k ∈ keysA m) : ∃ v, lookupA m k = some v := by
  rcases Option.eq_none_or_eq_some (lookupA m k) with h0 | ⟨v, hv⟩
  · exact absurd h (lookupA_eq_none_iff.mp h0)
  · exact ⟨v, hv⟩

theorem lookupA_setA_self (m : List (String × α)) (k : String) (v : α) :
    lookupA (setA m k v) k = some v := by
  induction m with
  | nil => simp [setA, lookupA]
  | cons p rest ih =>
    obtain ⟨k', v'⟩ := p
    by_cases h : k' = k
    · simp [setA, h, lookupA]
    · simp [setA, h, lookupA, ih]

theorem lookupA_setA_ne (m : List (String × α)) {k k' : String} (v : α)
    (h : k' ≠ k) : lookupA (setA m k v) k' = lookupA m k' := by
  have h' : k ≠ k' := Ne.symm h
  induction m with
  | nil => simp [setA, lookupA, h']
  | cons p rest ih =>
    obtain ⟨k0, v0⟩ := p
    by_cases h0 : k0 = k
    · subst h0
      simp [setA, lookupA, h']
    · simp only [setA, if_neg h0, lookupA]
      by_cases h1 : k0 = k'
      · simp [h1]
      · simp [h1, ih]

theorem mem_keysA_setA {m : List (String × α)} {k k' : String} {v : α} :
    k' ∈ keysA (setA m k v) ↔ k' = k ∨ k' ∈ keysA m := by
  induction m with
  | nil =>
    simp [setA, keysA]
  | cons p rest ih =>
    obtain ⟨k0, v0⟩ := p
    by_cases h0 : k0 = k
    · subst h0
      simp [setA, keysA_cons, List.mem_cons]
    · simp [setA, h0, keysA_cons, List.mem_cons, ih]
      tauto

theorem nodup_keysA_setA {m : List (String × α)} {k : String} {v : α}
    (h : (keysA m).Nodup) : (keysA (setA m k v)).Nodup := by
  induction m with
  | nil => simp [setA, keysA]
  | cons p rest ih =>
    obtain ⟨k0, v0⟩ := p
    rw [keysA_cons] at h
    have h1 := (List.nodup_cons.mp h).1
    have h2 := (List.nodup_cons.mp h).2
    by_cases h0 : k0 = k
    · subst h0
      rw [show setA ((k0, v0) :: rest) k0 v = (k0, v) :: rest by simp [setA]]
      rw [keysA_cons]
      exact List.nodup_cons.mpr ⟨h1, h2⟩
    · rw [show setA ((k0, v0) :: rest) k v = (k0, v0) :: setA rest k v by simp [setA, h0]]
      rw [keysA_cons]
      refine List.nodup_cons.mpr ⟨?_, ih h2⟩
      intro hmem
      rcases mem_keysA_setA.mp hmem with hh | hh
      · exact h0 hh
      · exact h1 hh

theorem lookupA_delA_ne (m : List (String × α)) {k k' : String} (h : k' ≠ k) :
    lookupA (delA m k) k' = lookupA m k' := by
  induction m with
  | nil => simp [delA]
  | cons p rest ih =>
    obtain ⟨k0, v0⟩ := p
    by_cases h0 : k0 = k
    · subst h0
      have hne : k0 ≠ k' := Ne.symm h
      simp [delA, lookupA, hne]
    · rw [show delA ((k0, v0) :: rest) k = (k0, v0) :: delA rest k by simp [delA, h0]]
      simp only [lookupA]
      by_cases h1 : k0 = k'
      · simp [h1]
      · simp [h1, ih]

theorem lookupA_delA_self {m : List (String × α)} {k : String}
    (hnd : (keysA m).Nodup) : lookupA (delA m k) k = none := by
  induction m with
  | nil => simp [delA, lookupA]
  | cons p rest ih =>
    obtain ⟨k0, v0⟩ := p
    rw [keysA_cons] at hnd
    have h1 := (List.nodup_cons.mp hnd).1
    have h2 := (List.nodup_cons.mp hnd).2
    by_cases h0 : k0 = k
    · subst h0
      rw [show delA ((k0, v0) :: rest) k0 = rest by simp [delA]]
      exact lookupA_eq_none_iff.mpr h1
    · rw [show delA ((k0, v0) :: rest) k = (k0, v0) :: delA rest k by simp [delA, h0]]
      simp only [lookupA, if_neg h0]
      exact ih h2

theorem mem_delA {m : List (String × α)} {k : String} {p : String × α}
    (h : p ∈ delA m k) : p ∈ m := by
  induction m with
  | nil => simp [delA] at h
  | cons q rest ih =>
    obtain ⟨k0, v0⟩ := q
    by_cases h0 : k0 = k
    · subst h0
      rw [show delA ((k0, v0) :: rest) k0 = rest by simp [delA]] at h
      exact List.mem_cons_of_mem _ h
    · rw [show delA ((k0, v0) :: rest) k = (k0, v0) :: delA rest k by simp [delA, h0]] at h
      rcases List.mem_cons.mp h with h | h
      · simp [h]
      · exact List.mem_cons_of_mem _ (ih h)

theorem fst_ne_of_mem_delA {m : List (String × α)} {k : String} {p : String × α}
    (hnd : (keysA m).Nodup) (h : p ∈ delA m k) : p.1 ≠ k := by
  induction m with
  | nil => simp [delA] at h
  | cons q rest ih =>
    obtain ⟨k0, v0⟩ := q
    rw [keysA_cons] at hnd
    have h1 := (List.nodup_cons.mp hnd).1
    have h2 := (List.nodup_cons.mp hnd).2
    by_cases h0 : k0 = k
    · subst h0
      rw [show delA ((k0, v0) :: rest) k0 = rest by simp [delA]] at h
      intro hk
      apply h1
      have hp : p.1 ∈ keysA rest := mem_keysA_of_mem h
      rwa [hk] at hp
    · rw [show delA ((k0, v0) :: rest) k = (k0, v0) :: delA rest k by simp [delA, h0]] at h
      rcases List.mem_cons.mp h with h | h
      · intro hk
        apply h0
        rw [← hk, h]
      · exact ih h2 h

theorem nodup_keysA_delA {m : List (String × α)} {k : String}
    (h : (keysA m).Nodup) : (keysA (delA m k)).Nodup := by
  induction m with
  | nil => simp [delA, keysA]
  | cons q rest ih =>
    obtain ⟨k0, v0⟩ := q
    rw [keysA_cons] at h
    have h1 := (List.nodup_cons.mp h).1
    have h2 := (List.nodup_cons.mp h).2
    by_cases h0 : k0 = k
    · subst h0
      rw [show delA ((k0, v0) :: rest) k0 = rest by simp [delA]]
      exact h2
    · rw [show delA ((k0, v0) :: rest) k = (k0, v0) :: delA rest k by simp [delA, h0]]
      rw [keysA_cons]
      refine List.nodup_cons.mpr ⟨?_, ih h2⟩
      intro hmem
      rcases List.mem_map.mp hmem with ⟨q, hq, hq2⟩
      apply h1
      have hp : q.1 ∈ keysA rest := mem_keysA_of_mem (mem_delA hq)
      rwa [hq2] at hp

theorem length_setA_of_mem {m : List (String × α)} {k : String} (v : α)
    (h : k ∈ keysA m) : (setA m k v).length = m.length := by
  induction m with
  | nil => simp [keysA] at h
  | cons p rest ih =>
    obtain ⟨k0, v0⟩ := p
    by_cases h0 : k0 = k
    · simp [setA, h0]
    · rw [keysA_cons, List.mem_cons] at h
      rcases h with h | h
      · exact absurd h.symm h0
      · simp [setA, h0, ih h]

theorem length_setA_of_not_mem {m : List (String × α)} {k : String} (v : α)
    (h : k ∉ keysA m) : (setA m k v).length = m.length + 1 := by
  induction m with
  | nil => simp [setA]
  | cons p rest ih =>
    obtain ⟨k0, v0⟩ := p
    rw [keysA_cons, List.mem_cons] at h
    have h0 : k0 ≠ k := fun hh => h (Or.inl hh.symm)
    have h1 : k ∉ keysA rest := fun hh => h (Or.inr hh)
    simp [setA, h0, ih h1]

theorem length_delA_of_mem {m : List (String × α)} {k : String}
    (h : k ∈ keysA m) : (delA m k).length + 1 = m.length := by
  induction m with
  | nil => simp [keysA] at h
  | cons p rest ih =>
    obtain ⟨k0, v0⟩ := p
    by_cases h0 : k0 = k
    · simp [delA, h0]
    · rw [keysA_cons, List.mem_cons] at h
      rcases h with h | h
      · exact absurd h.symm h0
      · simp [delA, h0, ih h]

theorem mem_setA_iff {m : List (String × α)} {k : String} {v : α} {p : String × α}
    (hnd : (keysA m).Nodup) :
    p ∈ setA m k v ↔ p = (k, v) ∨ (p ∈ m ∧ p.1 ≠ k) := by
  induction m with
  | nil =>
    simp [setA]
  | cons q rest ih =>
    obtain ⟨k0, v0⟩ := q
    rw [keysA_cons] at hnd
    have h1 := (List.nodup_cons.mp hnd).1
    have h2 := (List.nodup_cons.mp hnd).2
    by_cases h0 : k0 = k
    · subst h0
      rw [show setA ((k0, v0) :: rest) k0 v = (k0, v) :: rest by simp [setA]]
      rw [List.mem_cons, List.mem_cons]
      constructor
      · rintro (h | h)
        · exact Or.inl h
        · refine Or.inr ⟨Or.inr h, ?_⟩
          intro hk
          apply h1
          have hp : p.1 ∈ keysA rest := mem_keysA_of_mem h
          rwa [hk] at hp
      · rintro (h | ⟨h | h, hk⟩)
        · exact Or.inl h
        · exact absurd (by rw [h]) hk
        · exact Or.inr h
    · rw [show setA ((k0, v0) :: rest) k v = (k0, v0) :: setA rest k v by simp [setA, h0]]
      rw [List.mem_cons, List.mem_cons, ih h2]
      constructor
      · rintro (h | h | h)
        · refine Or.inr ⟨Or.inl h, ?_⟩
          rw [h]
          exact h0
        · exact Or.inl h
        · exact Or.inr ⟨Or.inr h.1, h.2⟩
      · rintro (h | ⟨h | h, hk⟩)
        · exact Or.inr (Or.inl h)
        · exact Or.inl h
        · exact Or.inr (Or.inr ⟨h, hk⟩)

theorem mem_delA_iff {m : List (String × α)} {k : String} {p : String × α}
    (hnd : (keysA m).Nodup) :
    p ∈ delA m k ↔ p ∈ m ∧ p.1 ≠ k := by
  constructor
  · intro h
    exact ⟨mem_delA h, fst_ne_of_mem_delA hnd h⟩
  · rintro ⟨hm, hk⟩
    induction m with
    | nil => simp at hm
    | cons q rest ih =>
      obtain ⟨k0, v0⟩ := q
      rw [keysA_cons] at hnd
      have h2 := (List.nodup_cons.mp hnd).2
      by_cases h0 : k0 = k
      · subst h0
        rw [show delA ((k0, v0) :: rest) k0 = rest by simp [delA]]
        rcases List.mem_cons.mp hm with h | h
        · exact absurd (by rw [h]) hk
        · exact h
      · rw [show delA ((k0, v0) :: rest) k = (k0, v0) :: delA rest k by simp [delA, h0]]
        rcases List.mem_cons.mp hm with h | h
        · exact List.mem_cons.mpr (Or.inl h)
        · exact List.mem_cons.mpr (Or.inr (ih h2 h))

/-! ## SHA-1 (node `createHash('sha1')`, hex digest)

The resolver suffixes sanitised scope keys with the first 6 hex characters
of the SHA-1 of the raw key.  SHA-1 over `Nat` with explicit `% 2^32`. -/

def pow32 : Nat := 4294967296

def rotl32 (n x : Nat) : Nat := ((x <<< n) % pow32) ||| (x >>> (32 - n))

/-- UTF-8 encoding of one character (node hashes the string as UTF-8). -/
def utf8Char (c : Char) : List Nat :=
  let n := c.toNat
  if n < 128 then [n]
  else if n < 2048 then [192 ||| (n >>> 6), 128 ||| (n &&& 63)]
  else if n < 65536 then
    [224 ||| (n >>> 12), 128 ||| ((n >>> 6) &&& 63), 128 ||| (n &&& 63)]
  else
    [240 ||| (n >>> 18), 128 ||| ((n >>> 12) &&& 63), 128 ||| ((n >>> 6) &&& 63),
      128 ||| (n &&& 63)]

def utf8Bytes (s : List Char) : List Nat :=
  List.foldr (fun c acc => utf8Char c ++ acc) [] s

/-- 64-bit big-endian length field. -/
def beBytes8 (n : Nat) : List Nat :=
  [(n >>> 56) &&& 255, (n >>> 48) &&& 255, (n >>> 40) &&& 255, (n >>> 32) &&& 255,
    (n >>> 24) &&& 255, (n >>> 16) &&& 255, (n >>> 8) &&& 255, n &&& 255]

def sha1pad (msg : List Nat) : List Nat :=
  let zeros := (64 - ((msg.length + 9) % 64)) % 64
  msg ++ 128 :: (List.replicate zeros 0 ++ beBytes8 (msg.length * 8))

/-- Big-endian 32-bit words of a block. -/
def toWords : List Nat → List Nat
  | b0 :: b1 :: b2 :: b3 :: rest =>
    (((b0 * 256 + b1) * 256 + b2) * 256 + b3) :: toWords rest
  | _ => []

/-- Message-schedule expansion from 16 to 80 words. -/
def sha1w (w16 : List Nat) : List Nat :=
  (List.range 64).foldl
    (fun acc _ =>
      let n := acc.length
      let x := (acc.getD (n - 3) 0) ^^^ (acc.getD (n - 8) 0) ^^^
        (acc.getD (n - 14) 0) ^^^ (acc.getD (n - 16) 0)
      acc ++ [rotl32 1 x])
    w16

def sha1f (t b c d : Nat) : Nat :=
  if t < 20 then (b &&& c) ||| (((pow32 - 1) ^^^ b) &&& d)
  else if t < 40 then b ^^^ c ^^^ d
  else if t < 60 then (b &&& c) ||| (b &&& d) ||| (c &&& d)
  else b ^^^ c ^^^ d

def sha1k (t : Nat) : Nat :=
  if t < 20 then 0x5A827999
  else if t < 40 then 0x6ED9EBA1
  else if t < 60 then 0x8F1BBCDC
  else 0xCA62C1D6

def sha1round (w : List Nat) (acc : Nat × Nat × Nat × Nat × Nat) (t : Nat) :
    Nat × Nat × Nat × Nat × Nat :=
  match acc with
  | (a, b, c, d, e) =>
    let temp := (rotl32 5 a + sha1f t b c d + e + sha1k t + w.getD t 0) % pow32
    (temp, a, rotl32 30 b, c, d)

def sha1compress (h : Nat × Nat × Nat × Nat × Nat) (block : List Nat) :
    Nat × Nat × Nat × Nat × Nat :=
  let w := sha1w (toWords block)
  match h, (List.range 80).foldl (sha1round w) h with
  | (h0, h1, h2, h3, h4), (a, b, c, d, e) =>
    ((h0 + a) % pow32, (h1 + b) % pow32, (h2 + c) % pow32, (h3 + d) % pow32,
      (h4 + e) % pow32)

def sha1init : Nat × Nat × Nat × Nat × Nat :=
  (0x67452301, 0xEFCDAB89, 0x98BADCFE, 0x10325476, 0xC3D2E1F0)

/-- Fold `sha1compress` over the 64-byte blocks.  Structural recursion on a
fuel argument (each step consumes 64 bytes, so `bytes.length` fuel always
suffices); this keeps the definition kernel-reducible. -/
def sha1Blocks : Nat → (Nat × Nat × Nat × Nat × Nat) → List Nat →
    Nat × Nat × Nat × Nat × Nat
  | 0, h, _ => h
  | fuel + 1, h, bytes =>
    if bytes.isEmpty then h
    else sha1Blocks fuel (sha1compress h (bytes.take 64)) (bytes.drop 64)

def hexDigit (n : Nat) : Char := if n < 10 then Char.ofNat (48 + n) else Char.ofNat (87 + n)

def hexWord (x : Nat) : List Char :=
  (List.range 8).map (fun i => hexDigit ((x >>> ((7 - i) * 4)) &&& 15))

/-- `createHash('sha1').update(raw).digest('hex')` as a list of hex chars. -/
def sha1hex (s : String) : List Char :=
  let padded := sha1pad (utf8Bytes s.data)
  match sha1Blocks padded.length sha1init padded with
  | (h0, h1, h2, h3, h4) =>
    hexWord h0 ++ hexWord h1 ++ hexWord h2 ++ hexWord h3 ++ hexWord h4

/-! ## The prefix resolver (`scopePrefix` / `getScopePrefix`) -/

/-- The character class `[a-zA-Z0-9_]` of the sanitising regex. -/
def isWordChar (c : Char) : Bool :=
  let n := c.toNat
  (97 ≤ n && n ≤ 122) || (65 ≤ n && n ≤ 90) || (48 ≤ n && n ≤ 57) || n == 95

/-- The JavaScript `String.prototype.trim` character set
(WhiteSpace plus LineTerminator). -/
def isJsWhitespace (c : Char) : Bool :=
  decide (c.toNat ∈ ([9, 10, 11, 12, 13, 32, 160, 5760, 8192, 8193, 8194, 8195, 8196,
    8197, 8198, 8199, 8200, 8201, 8202, 8232, 8233, 8239, 8287, 12288,
    65279] : List Nat))

/-- `input.trim()` -/
def jsTrim (l : List Char) : List Char :=
  ((l.dropWhile isJsWhitespace).reverse.dropWhile isJsWhitespace).reverse

/-- `raw.replace(/[^a-zA-Z0-9_]+/g, '_')`: every maximal run of characters
outside the class is replaced by a single underscore.  The flag records
whether the previous character was part of such a run. -/
def sanitizeAux : Bool → List Char → List Char
  | _, [] => []
  | prevBad, c :: rest =>
    if isWordChar c then c :: sanitizeAux false rest
    else if prevBad then sanitizeAux true rest
    else '_' :: sanitizeAux true rest

def sanitize (l : List Char) : List Char := sanitizeAux false l

/-- `/^[a-zA-Z0-9_]+$/.test raw` -/
def isFullWordStr (l : List Char) : Bool := !l.isEmpty && l.all isWordChar

/-- `scopePrefix` from part_008 (identical to `callerPrefix` in core.ts):
trim, sanitise (`|| 'caller'` for the empty result), return the raw key
unchanged when it is its own sanitisation and fully word-class, else suffix
`_` plus the first 6 hex chars of the SHA-1 of the trimmed raw key. -/
def scopePfxList (raw : List Char) : List Char :=
  let s0 := sanitize raw
  let sanitized := if s0.isEmpty then "caller".data else s0
  if sanitized == raw && isFullWordStr raw then raw
  else sanitized ++ '_' :: (sha1hex ⟨raw⟩).take 6

def scopePfx (input : String) : String := ⟨scopePfxList (jsTrim input.data)⟩

/-- `getScopePrefix`: memoised per SharedState.  The JS code tests the cached
value for truthiness (`if (cached) return cached`), so an empty cached string
would be recomputed. -/
def getScopePfx (cache : List (String × String)) (key : String) :
    List (String × String) × String :=
  match lookupA cache key with
  | some c =>
    if c = "" then (setA cache key (scopePfx key), scopePfx key)
    else (cache, c)
  | none => (setA cache key (scopePfx key), scopePfx key)

/-! ## Entity schemas and the rewrite transform -/

/-- The `EntitySchema.meta` fields the registry reads or writes.  `hasClass`
and `hasPrototype` model the presence of the `class` / `prototype`
identity-binding back-references; `payload` stands for all remaining
metadata (properties, indexes, ...) which the rewrite copies verbatim. -/
structure Schema where
  name : Option String
  className : Option String
  tableName : Option String
  collection : Option String
  hasClass : Bool
  hasPrototype : Bool
  payload : Nat
deriving DecidableEq

inductive MErr
  | invalidSchemaName
  | invalidSchemaTable
  | entityConflict
  | tableNameConflict
deriving DecidableEq

/-- `resolveEntityName`: `schema.meta.className ?? schema.meta.name`, throwing
when the result is nullish or (JS falsiness) the empty string. -/
def resolveEntityName (s : Schema) : Except MErr String :=
  match s.className.orElse (fun _ => s.name) with
  | none => Except.error MErr.invalidSchemaName
  | some n => if n.data.isEmpty then Except.error MErr.invalidSchemaName else Except.ok n

/-- `resolveTableName`: `schema.meta.tableName ?? schema.meta.collection`. -/
def resolveTableName (s : Schema) : Except MErr String :=
  match s.tableName.orElse (fun _ => s.collection) with
  | none => Except.error MErr.invalidSchemaTable
  | some n => if n.data.isEmpty then Except.error MErr.invalidSchemaTable else Except.ok n

/-- `stripPrefix(value, prefix)`: drop a leading `{prefix}_` if present.
(`value.startsWith(p)` / `value.slice(p.length)` expressed on the character
lists, keeping the definition kernel-reducible.) -/
def stripPfx (value pfx : String) : String :=
  let p := pfx ++ "_"
  if p.data.isPrefixOf value.data then ⟨value.data.drop p.data.length⟩ else value

/-- `rewriteSchema`'s metadata construction: spread-copy the input metadata,
overwrite the name/identity and table/collection fields, and delete the
`class` / `prototype` identity bindings. -/
def rewriteMeta (m : Schema) (entityName tableName : String) : Schema :=
  { m with
    name := some entityName
    className := some entityName
    tableName := some tableName
    collection := some tableName
    hasClass := false
    hasPrototype := false }

/-- `rewriteSchema` at the heap level: schema descriptors live in a store of
cells (the JavaScript heap), a descriptor value is a cell index, and the
rewrite allocates a fresh cell for the renamed copy, leaving every existing
cell — in particular the input — untouched. -/
def rewriteSchemaIn (store : List Schema) (ref : Nat) (en tn : String) :
    List Schema × Nat :=
  match store[ref]? with
  | none => (store, ref)
  | some m => (store ++ [rewriteMeta m en tn], store.length)

/-! ## The SharedState catalog machine -/

/-- One `RegisteredEntity` record.  `handleId` models the identity of the
`EntityHandleImpl` object created for the record (fresh ids come from a
counter in the state). -/
structure Rec where
  scopeKey : String
  scopePfxVal : String
  entityName : String
  baseEntityName : String
  baseTableName : String
  schema : Schema
  tableName : String
  dropTableOnDispose : Bool
  handleId : Nat
deriving DecidableEq

/-- Engine-side observable actions issued by the registry, in order. -/
inductive Effect
  | discoverNew (entityName : String)
  | discoverReset (entityName : String)
  | updateSchemaSafe
  | dropTable (tableName : String)
  | closeOrm
  | cancelHook
  | migratorUp
  | migratorDown
deriving DecidableEq

/-- The engine's `migrations` configuration object: its `tableName` key plus
an abstract `payload` for all other keys. -/
structure MigCfg where
  tableName : Option String
  payload : Nat
deriving DecidableEq

/-- `SharedState` (part_008).  `configPresent` / `ormInstance` / `initDone`
model the presence of `config` / `ormInstance` / `initPromise`;
`ormCloseCancels` counts the registered teardown hooks; `migrationsCfg` is
the engine's `migrations` configuration (held on `orm.config` in the
source); `nextHandle` supplies fresh handle identities; `trace` records the
engine effects issued so far. -/
structure PState where
  configPresent : Bool
  ormInstance : Bool
  initDone : Bool
  ormCloseCancels : Nat
  entities : List (String × Rec)
  tableToEntityName : List (String × String)
  pendingDropTables : List String
  scopePfxCache : List (String × String)
  migrationsCfg : MigCfg
  nextHandle : Nat
  trace : List Effect
deriving DecidableEq

/-- JS `Set.add`. -/
def addSet (l : List String) (x : String) : List String :=
  if x ∈ l then l else l ++ [x]

/-- `RegisterEntityOptions`. -/
structure ROpts where
  ensureSchema : Option Bool
  dropTableOnDispose : Option Bool
  entityName : Option String
  tableName : Option String
deriving DecidableEq

def noOpts : ROpts := ⟨none, none, none, none⟩

/-- The name computations at the head of `registerEntityFor` (after the
prefix has been resolved): base names from options or the schema, prefix
stripping, and the prefixed `entityName` / `tableName`. -/
structure Plan where
  entityName : String
  tableName : String
  baseEntityName : String
  baseTableName : String
deriving DecidableEq

def mkPlan (pfx : String) (schema : Schema) (opts : ROpts) : Except MErr Plan := do
  let rawBE ← match opts.entityName with
    | some v => Except.ok v
    | none => resolveEntityName schema
  let rawBT ← match opts.tableName with
    | some v => Except.ok v
    | none => resolveTableName schema
  let baseEntityName := stripPfx rawBE pfx
  let baseTableName := stripPfx rawBT pfx
  Except.ok ⟨pfx ++ "_" ++ baseEntityName, pfx ++ "_" ++ baseTableName,
    baseEntityName, baseTableName⟩

/-- The result handed back to the caller: the handle's names and identity. -/
structure RegResult where
  entityName : String
  tableName : String
  handleId : Nat
deriving DecidableEq

/-- `existing && existing.scopeKey !== scopeKey` -/
def entityConflictB (st : PState) (en k : String) : Bool :=
  match lookupA st.entities en with
  | some r => r.scopeKey != k
  | none => false

/-- `owner && owner !== entityName` -/
def tableConflictB (st : PState) (tn en : String) : Bool :=
  match lookupA st.tableToEntityName tn with
  | some o => o != en
  | none => false

/-- The fresh-registration branch of `registerEntityFor` (part_008 lines
439-468): build the record and its handle, insert into both catalog maps,
discover the rewritten schema and optionally sync the schema. -/
def regNew (k pfx : String) (plan : Plan) (schema : Schema) (opts : ROpts)
    (st : PState) : PState × Except MErr RegResult :=
  let en := plan.entityName
  let tn := plan.tableName
  let ensure := opts.ensureSchema.getD true
  let r : Rec :=
    { scopeKey := k, scopePfxVal := pfx, entityName := en,
      baseEntityName := plan.baseEntityName,
      baseTableName := plan.baseTableName,
      schema := rewriteMeta schema en tn,
      tableName := tn,
      dropTableOnDispose := opts.dropTableOnDispose.getD false,
      handleId := st.nextHandle }
  let st' :=
    { st with
      entities := setA st.entities en r
      tableToEntityName := setA st.tableToEntityName tn en
      nextHandle := st.nextHandle + 1
      trace := st.trace ++ Effect.discoverNew en ::
        (if ensure then [Effect.updateSchemaSafe] else []) }
  (st', Except.ok ⟨en, tn, r.handleId⟩)

/-- The same-scope re-registration branch (part_008 lines 470-484): adjust
the table-ownership map if the table name changed, mutate the stored record
in place (explicit options override stored flags, unspecified ones keep the
stored value), re-discover with the reset flag, and return the existing
handle. -/
def regUpdate (pfx : String) (plan : Plan) (rec0 : Rec) (schema : Schema)
    (opts : ROpts) (st : PState) : PState × Except MErr RegResult :=
  let en := plan.entityName
  let tn := plan.tableName
  let ensure := opts.ensureSchema.getD true
  let tmap :=
    if rec0.tableName ≠ tn then
      setA (delA st.tableToEntityName rec0.tableName) tn en
    else st.tableToEntityName
  let rec1 :=
    { rec0 with
      scopePfxVal := pfx
      baseEntityName := plan.baseEntityName
      baseTableName := plan.baseTableName
      schema := rewriteMeta schema en tn
      tableName := tn
      dropTableOnDispose := opts.dropTableOnDispose.getD rec0.dropTableOnDispose }
  let st' :=
    { st with
      entities := setA st.entities en rec1
      tableToEntityName := tmap
      trace := st.trace ++ Effect.discoverReset en ::
        (if ensure then [Effect.updateSchemaSafe] else []) }
  (st', Except.ok ⟨en, tn, rec0.handleId⟩)

/-- The serialised body of `registerEntityFor`: the two conflict checks in
source order (entity conflict first), then the fresh / re-registration
branches. -/
def regBody (k pfx : String) (plan : Plan) (schema : Schema) (opts : ROpts)
    (st : PState) : PState × Except MErr RegResult :=
  if entityConflictB st plan.entityName k then (st, Except.error MErr.entityConflict)
  else if tableConflictB st plan.tableName plan.entityName then
    (st, Except.error MErr.tableNameConflict)
  else
    match lookupA st.entities plan.entityName with
    | none => regNew k pfx plan schema opts st
    | some rec0 => regUpdate pfx plan rec0 schema opts st

/-- `registerEntityFor` (part_008 lines 403-486).  The prefix
is resolved (and memoised) first; the base names are taken from the options
or the schema and stripped of an existing prefix; the conflict checks and
catalog writes run inside `this.exclusive`.  Errors model `throw`: the
catalog maps are untouched, though the memo cache may have gained an
entry. -/
def registerEntityFor (k : String) (schema : Schema) (opts : ROpts) (st0 : PState) :
    PState × Except MErr RegResult :=
  match mkPlan (getScopePfx st0.scopePfxCache k).2 schema opts with
  | Except.error e =>
    ({ st0 with scopePfxCache := (getScopePfx st0.scopePfxCache k).1 }, Except.error e)
  | Except.ok plan =>
    regBody k (getScopePfx st0.scopePfxCache k).2 plan schema opts
      { st0 with scopePfxCache := (getScopePfx st0.scopePfxCache k).1 }

/-- `releaseEntity` (part_008 lines 514-534), the body run on the serial
queue when a handle is disposed.  A missing record or a different owning
scope is a silent no-op. -/
def releaseEntity (entityName k : String) (st : PState) : PState :=
  match lookupA st.entities entityName with
  | none => st
  | some rec0 =>
    if rec0.scopeKey ≠ k then st
    else if st.ormInstance then
      { st with
        entities := delA st.entities entityName
        tableToEntityName := delA st.tableToEntityName rec0.tableName
        trace := st.trace ++ Effect.discoverReset entityName ::
          (if rec0.dropTableOnDispose then [Effect.dropTable rec0.tableName] else []) }
    else if rec0.dropTableOnDispose then
      { st with
        entities := delA st.entities entityName
        tableToEntityName := delA st.tableToEntityName rec0.tableName
        pendingDropTables := addSet st.pendingDropTables rec0.tableName }
    else
      { st with
        entities := delA st.entities entityName
        tableToEntityName := delA st.tableToEntityName rec0.tableName }

/-- `init` (part_008 lines 320-353): memoised via `initPromise`; on success
reads the config, creates the engine, registers a teardown hook and drains
`pendingDropTables` (each drop guarded by try/catch).  On failure the memo
is cleared so the next call retries; `createOrmOk` models whether
`createOrm` succeeds.  Returns the state and whether init succeeded. -/
def initStep (createOrmOk : Bool) (st : PState) : PState × Bool :=
  if st.initDone then (st, true)
  else if createOrmOk then
    let st1 :=
      { st with
        configPresent := true
        ormInstance := true
        initDone := true
        ormCloseCancels := st.ormCloseCancels + 1 }
    let pending := st1.pendingDropTables
    ({ st1 with
        pendingDropTables := []
        trace := st1.trace ++ pending.map Effect.dropTable }, true)
  else (st, false)

/-- `stop` (part_008 lines 355-370): invokes and clears the teardown hooks,
closes the engine if present, and wipes `config` / `ormInstance` /
`initPromise`.  The entity catalog maps are left untouched. -/
def stopStep (st : PState) : PState :=
  { st with
    ormCloseCancels := 0
    trace := st.trace ++ List.replicate st.ormCloseCancels Effect.cancelHook ++
      (if st.ormInstance then [Effect.closeOrm] else [])
    configPresent := false
    ormInstance := false
    initDone := false }

/-- `stop` of the older core.ts provider (lines 271-288), which additionally
clears `entities` and `tableToEntityName`. -/
def stopStepCore (st : PState) : PState :=
  { stopStep st with entities := [], tableToEntityName := [] }

inductive MigDir
  | up
  | down
deriving DecidableEq

/-- The `migrations` option bag: a partial `MigCfg` merged over the current
configuration by object spread. -/
structure MigPatch where
  tableName : Option String
  payload : Option Nat
deriving DecidableEq

structure MigrateOpts where
  direction : Option MigDir
  migrations : Option MigPatch
deriving DecidableEq

/-- `{...prev, ...patch}` -/
def mergeMig (prev : MigCfg) (patch : MigPatch) : MigCfg :=
  ⟨patch.tableName.orElse (fun _ => prev.tableName), patch.payload.getD prev.payload⟩

/-- `migrateFor` (part_008 lines 488-512).  Returns the final state, the
migration outcome, and the intermediate state in force while the migrator
ran (showing the substituted configuration); `migOk` models whether
`orm.migrator.up()` / `.down()` succeeds, and the `finally` block restores
the previous configuration object in either case. -/
def migrateFor (k : String) (opts : MigrateOpts) (migOk : Bool) (st0 : PState) :
    PState × Except Unit Unit × PState :=
  let pr := getScopePfx st0.scopePfxCache k
  let pfx := pr.2
  let st := { st0 with scopePfxCache := pr.1 }
  let dir := opts.direction.getD MigDir.up
  let prev := st.migrationsCfg
  let merged := mergeMig prev (opts.migrations.getD ⟨none, none⟩)
  let baseTable := merged.tableName.getD "mikro_orm_migrations"
  let nextCfg : MigCfg := ⟨some (pfx ++ "_" ++ stripPfx baseTable pfx), merged.payload⟩
  let ev := match dir with
    | MigDir.down => Effect.migratorDown
    | MigDir.up => Effect.migratorUp
  let during := { st with migrationsCfg := nextCfg, trace := st.trace ++ [ev] }
  let outcome : Except Unit Unit := if migOk then Except.ok () else Except.error ()
  ({ during with migrationsCfg := prev }, outcome, during)

/-! ## The SerialQueue

`SerialQueue.run(fn)` (part_008 lines 659-683): if `depth > 0` the function
is invoked immediately (`return fn()`), otherwise a wrapper that increments
`depth`, awaits `fn`, and decrements `depth` in `finally` is chained onto
the tail promise; chained tasks therefore run one after another in arrival
order.

The model is a small-step scheduler.  A task is a list of synchronous
segments separated by `await` suspension points; a segment carries the ids
of nested `run` calls it makes synchronously (nested tasks are taken to be
single-segment).  Scheduler events: `call` (a `run` invocation arriving
from outside any currently executing segment — this is possible whenever
the JS stack is empty, in particular while a queued task is suspended at an
`await`), `dispatch` (the tail promise chain starts the next queued task),
and `resume` (a pending await of a started task completes and its next
segment runs). -/

inductive QEvent
  | arrive (id : Nat)
  | start (id : Nat)
  | finish (id : Nat)
deriving DecidableEq

/-- A started but unfinished task: its remaining segments, and whether it
went through the queue (`wrapped`) or ran inline via the `depth > 0` path. -/
structure ATask where
  id : Nat
  remaining : List (List Nat)
  queued : Bool
deriving DecidableEq

structure QState where
  depth : Nat
  tailQ : List (Nat × List (List Nat))
  active : List ATask
  log : List QEvent
deriving DecidableEq

def qinit : QState := ⟨0, [], [], []⟩

/-- Nested `run` calls issued synchronously inside an executing segment:
with `depth > 0` they run inline to completion, with `depth = 0` (possible
for a late segment of an inline task running after its parent finished)
they are appended to the queue. -/
def runNested (s : QState) (ns : List Nat) : QState :=
  ns.foldl
    (fun acc n =>
      if acc.depth > 0 then
        { acc with log := acc.log ++ [QEvent.arrive n, QEvent.start n, QEvent.finish n] }
      else
        { acc with
          tailQ := acc.tailQ ++ [(n, [[]])]
          log := acc.log ++ [QEvent.arrive n] })
    s

/-- Run one segment of task `id` (whose remaining segments are `rest`),
then either suspend (`rest` nonempty) or finish; a finishing queued task
decrements `depth` (the `finally` of `wrapped`). -/
def runSegment (s : QState) (id : Nat) (seg : List Nat) (rest : List (List Nat))
    (queued : Bool) : QState :=
  let s1 := runNested s seg
  match rest with
  | [] =>
    let s2 := { s1 with log := s1.log ++ [QEvent.finish id] }
    if queued then { s2 with depth := s2.depth - 1 } else s2
  | _ => { s1 with active := s1.active ++ [⟨id, rest, queued⟩] }

def removeFirst : List ATask → Nat → Option ATask × List ATask
  | [], _ => (none, [])
  | t :: ts, id =>
    if t.id = id then (some t, ts)
    else
      let r := removeFirst ts id
      (r.1, t :: r.2)

inductive QStep
  | call (id : Nat) (segs : List (List Nat))
  | dispatch
  | resume (id : Nat)

def qstep (s : QState) : QStep → QState
  | QStep.call id segs =>
    let s0 := { s with log := s.log ++ [QEvent.arrive id] }
    if s.depth > 0 then
      match segs with
      | [] => { s0 with log := s0.log ++ [QEvent.start id, QEvent.finish id] }
      | seg :: rest =>
        runSegment { s0 with log := s0.log ++ [QEvent.start id] } id seg rest false
    else { s0 with tailQ := s0.tailQ ++ [(id, segs)] }
  | QStep.dispatch =>
    if s.depth = 0 then
      match s.tailQ with
      | [] => s
      | (id, segs) :: restQ =>
        let s0 :=
          { s with
            tailQ := restQ
            depth := s.depth + 1
            log := s.log ++ [QEvent.start id] }
        match segs with
        | [] => { s0 with depth := s0.depth - 1, log := s0.log ++ [QEvent.finish id] }
        | seg :: rest => runSegment s0 id seg rest true
    else s
  | QStep.resume id =>
    let r := removeFirst s.active id
    match r.1 with
    | none => s
    | some t =>
      let s0 := { s with active := r.2 }
      match t.remaining with
      | [] =>
        let s1 := { s0 with log := s0.log ++ [QEvent.finish t.id] }
        if t.queued then { s1 with depth := s1.depth - 1 } else s1
      | seg :: rest => runSegment s0 t.id seg rest t.queued

def qrun (steps : List QStep) : QState := steps.foldl qstep qinit

/-- Number of queued (via-`wrapped`) tasks in a task list. -/
def qcnt (l : List ATask) : Nat := (l.filter (fun t => t.queued)).length

/-- `depth` counts exactly the queued tasks in flight, and at most one
queued task is in flight at a time. -/
def QInv (s : QState) : Prop := s.depth = qcnt s.active ∧ s.depth ≤ 1

theorem runNested_depth (s : QState) (ns : List Nat) :
    (runNested s ns).depth = s.depth ∧ (runNested s ns).active = s.active := by
  induction ns generalizing s with
  | nil => exact ⟨rfl, rfl⟩
  | cons n rest ih =>
    rw [show runNested s (n :: rest) =
      runNested (if s.depth > 0 then
        { s with log := s.log ++ [QEvent.arrive n, QEvent.start n, QEvent.finish n] }
      else
        { s with
          tailQ := s.tailQ ++ [(n, [[]])]
          log := s.log ++ [QEvent.arrive n] }) rest by
        simp [runNested, List.foldl_cons]]
    by_cases h : s.depth > 0
    · simpa [h] using ih _
    · simpa [h] using ih _

theorem qcnt_append (l : List ATask) (t : ATask) :
    qcnt (l ++ [t]) = qcnt l + (if t.queued then 1 else 0) := by
  by_cases h : t.queued <;> simp [qcnt, List.filter_append, h]

theorem qinv_runSegment {s : QState} {id : Nat} {seg : List Nat}
    {rest : List (List Nat)} {queued : Bool}
    (hdep : s.depth = qcnt s.active + (if queued then 1 else 0))
    (hle : s.depth ≤ 1) :
    QInv (runSegment s id seg rest queued) := by
  have hd := (runNested_depth s seg).1
  have ha := (runNested_depth s seg).2
  cases rest with
  | nil =>
    cases queued with
    | true =>
      refine ⟨?_, ?_⟩
      · show (runNested s seg).depth - 1 = qcnt (runNested s seg).active
        rw [hd, ha]
        simp only [if_true] at hdep
        omega
      · show (runNested s seg).depth - 1 ≤ 1
        rw [hd]
        omega
    | false =>
      refine ⟨?_, ?_⟩
      · show (runNested s seg).depth = qcnt (runNested s seg).active
        rw [hd, ha]
        simpa using hdep
      · show (runNested s seg).depth ≤ 1
        rw [hd]
        exact hle
  | cons a b =>
    refine ⟨?_, ?_⟩
    · show (runNested s seg).depth =
        qcnt ((runNested s seg).active ++ [⟨id, a :: b, queued⟩])
      rw [qcnt_append, hd, ha]
      exact hdep
    · show (runNested s seg).depth ≤ 1
      rw [hd]
      exact hle

theorem removeFirst_qcnt {l : List ATask} {id : Nat} {t : ATask} {l2 : List ATask}
    (h : removeFirst l id = (some t, l2)) :
    qcnt l = qcnt l2 + (if t.queued then 1 else 0) := by
  induction l generalizing l2 with
  | nil => simp [removeFirst] at h
  | cons x xs ih =>
    by_cases hx : x.id = id
    · rw [show removeFirst (x :: xs) id = (some x, xs) by simp [removeFirst, hx]] at h
      injection h with h1 h2
      injection h1 with h1
      subst h1
      subst h2
      cases hxq : x.queued <;> simp [qcnt, List.filter_cons, hxq]
    · rw [show removeFirst (x :: xs) id =
        ((removeFirst xs id).1, x :: (removeFirst xs id).2) by
          simp [removeFirst, hx]] at h
      injection h with h1 h2
      subst h2
      have hpair : removeFirst xs id = (some t, (removeFirst xs id).2) := by
        rw [← h1]
      have hrec := ih hpair
      cases hxq : x.queued <;>
        simp [qcnt, List.filter_cons, hxq] at hrec ⊢ <;> omega

theorem qstep_inv {s : QState} (e : QStep) (h : QInv s) : QInv (qstep s e) := by
  obtain ⟨h1, h2⟩ := h
  cases e with
  | call id segs =>
    by_cases hd : s.depth > 0
    · cases segs with
      | nil =>
        simp only [qstep, if_pos hd]
        exact ⟨h1, h2⟩
      | cons seg rest =>
        simp only [qstep, if_pos hd]
        apply qinv_runSegment
        · simpa using h1
        · simpa using h2
    · simp only [qstep, if_neg hd]
      exact ⟨h1, h2⟩
  | dispatch =>
    by_cases hd : s.depth = 0
    · cases htq : s.tailQ with
      | nil =>
        simp only [qstep, if_pos hd, htq]
        exact ⟨h1, h2⟩
      | cons p restQ =>
        obtain ⟨id, segs⟩ := p
        have hqc : qcnt s.active = 0 := by omega
        cases segs with
        | nil =>
          simp only [qstep, if_pos hd, htq]
          refine ⟨?_, ?_⟩
          · show s.depth + 1 - 1 = qcnt s.active
            omega
          · show s.depth + 1 - 1 ≤ 1
            omega
        | cons seg rest =>
          simp only [qstep, if_pos hd, htq]
          apply qinv_runSegment
          · show s.depth + 1 = qcnt s.active + (if true then 1 else 0)
            simp only [if_true]
            omega
          · show s.depth + 1 ≤ 1
            omega
    · simp only [qstep, if_neg hd]
      exact ⟨h1, h2⟩
  | resume id =>
    cases hr : (removeFirst s.active id).1 with
    | none =>
      simp only [qstep, hr]
      exact ⟨h1, h2⟩
    | some t =>
      have hpair : removeFirst s.active id = (some t, (removeFirst s.active id).2) := by
        rw [← hr]
      have hcnt := removeFirst_qcnt hpair
      cases hrem : t.remaining with
      | nil =>
        cases hq : t.queued with
        | true =>
          simp [hq] at hcnt
          simp only [qstep, hr, hrem, hq, if_true]
          refine ⟨?_, ?_⟩
          · show s.depth - 1 = qcnt (removeFirst s.active id).2
            omega
          · show s.depth - 1 ≤ 1
            omega
        | false =>
          simp [hq] at hcnt
          simp only [qstep, hr, hrem, hq, if_false]
          refine ⟨?_, ?_⟩
          · show s.depth = qcnt (removeFirst s.active id).2
            omega
          · exact h2
      | cons seg rest =>
        cases hq : t.queued with
        | true =>
          simp [hq] at hcnt
          simp only [qstep, hr, hrem, hq]
          apply qinv_runSegment
          · show s.depth = qcnt (removeFirst s.active id).2 + (if true then 1 else 0)
            simp only [if_true]
            omega
          · exact h2
        | false =>
          simp [hq] at hcnt
          simp only [qstep, hr, hrem, hq]
          apply qinv_runSegment
          · show s.depth = qcnt (removeFirst s.active id).2 + 0
            omega
          · exact h2

theorem qfold_inv (steps : List QStep) (s : QState) (h : QInv s) :
    QInv (steps.foldl qstep s) := by
  induction steps generalizing s with
  | nil => exact h
  | cons e rest ih =>
    rw [List.foldl_cons]
    exact ih _ (qstep_inv e h)

theorem qrun_inv (steps : List QStep) : QInv (qrun steps) :=
  qfold_inv steps qinit ⟨rfl, by simp [qinit]⟩

/-! ## The catalog bijection invariant -/

/-- The two catalog maps form an exact bijection on the live set:
unique entity names, unique table names, every record keyed by its own
`entityName` with `tableOwner[tableName] = entityName`, and every
table-owner entry backed by a live record carrying that table name. -/
def CatInvM (es : List (String × Rec)) (ts : List (String × String)) : Prop :=
  (keysA es).Nodup ∧ (keysA ts).Nodup ∧
  (∀ p ∈ es, p.2.entityName = p.1) ∧
  (∀ p ∈ es, lookupA ts p.2.tableName = some p.1) ∧
  (∀ q ∈ ts, (lookupA es q.2).map (fun r => r.tableName) = some q.1)

def CatInv (st : PState) : Prop := CatInvM st.entities st.tableToEntityName

theorem catInvM_table_iff {es : List (String × Rec)} {ts : List (String × String)}
    (h : CatInvM es ts) (tn en : String) :
    lookupA ts tn = some en ↔ ∃ r, lookupA es en = some r ∧ r.tableName = tn := by
  obtain ⟨h1, h2, h3, h4, h5⟩ := h
  constructor
  · intro hl
    have hmem : (tn, en) ∈ ts := lookupA_mem hl
    have h5q := h5 (tn, en) hmem
    cases hle : lookupA es en with
    | none => rw [hle] at h5q; simp at h5q
    | some r =>
      rw [hle] at h5q
      simp at h5q
      exact ⟨r, rfl, h5q⟩
  · rintro ⟨r, hr, hrt⟩
    have hmem : (en, r) ∈ es := lookupA_mem hr
    have := h4 (en, r) hmem
    rw [← hrt]
    exact this

theorem catInvM_length {es : List (String × Rec)} {ts : List (String × String)}
    (h : CatInvM es ts) : es.length = ts.length := by
  obtain ⟨h1, h2, h3, h4, h5⟩ := h
  have hes : es.Nodup := h1.of_map
  have hinj : ∀ p ∈ es, ∀ p2 ∈ es, p.2.tableName = p2.2.tableName → p = p2 := by
    intro p hp p2 hp2 heq
    have e1 := h4 p hp
    have e2 := h4 p2 hp2
    rw [heq] at e1
    rw [e1] at e2
    have hk : p.1 = p2.1 := Option.some.inj e2
    have l1 := mem_lookupA h1 (show (p.1, p.2) ∈ es from hp)
    have l2 := mem_lookupA h1 (show (p2.1, p2.2) ∈ es from hp2)
    rw [hk] at l1
    rw [l1] at l2
    have hv : p.2 = p2.2 := Option.some.inj l2
    exact Prod.ext hk hv
  have hmapnd : (es.map (fun p => p.2.tableName)).Nodup :=
    List.Nodup.map_on hinj hes
  have hsub1 : es.map (fun p => p.2.tableName) ⊆ keysA ts := by
    intro x hx
    rcases List.mem_map.mp hx with ⟨p, hp, hpx⟩
    have := h4 p hp
    have hmem : (p.2.tableName, p.1) ∈ ts := lookupA_mem this
    have := mem_keysA_of_mem hmem
    rwa [hpx] at this
  have hsub2 : keysA ts ⊆ es.map (fun p => p.2.tableName) := by
    intro x hx
    rcases List.mem_map.mp hx with ⟨q, hq, hqx⟩
    have h5q := h5 q hq
    cases hle : lookupA es q.2 with
    | none => rw [hle] at h5q; simp at h5q
    | some r =>
      rw [hle] at h5q
      simp at h5q
      have hmem : (q.2, r) ∈ es := lookupA_mem hle
      refine List.mem_map.mpr ⟨(q.2, r), hmem, ?_⟩
      rw [h5q, hqx]
  have hle1 : (es.map (fun p => p.2.tableName)).length ≤ (keysA ts).length :=
    (hmapnd.subperm hsub1).length_le
  have hle2 : (keysA ts).length ≤ (es.map (fun p => p.2.tableName)).length :=
    (h2.subperm hsub2).length_le
  have : (es.map (fun p => p.2.tableName)).length = (keysA ts).length := by omega
  simpa [keysA] using this

/-- Inserting a fresh record (the `!existing` branch). -/
theorem catInvM_insert {es : List (String × Rec)} {ts : List (String × String)}
    (h : CatInvM es ts) {en tn : String} {r : Rec}
    (hen : lookupA es en = none) (htn : lookupA ts tn = none)
    (hrn : r.entityName = en) (hrt : r.tableName = tn) :
    CatInvM (setA es en r) (setA ts tn en) := by
  obtain ⟨h1, h2, h3, h4, h5⟩ := h
  refine ⟨nodup_keysA_setA h1, nodup_keysA_setA h2, ?_, ?_, ?_⟩
  · intro p hp
    rcases (mem_setA_iff h1).mp hp with hpe | ⟨hpm, hpk⟩
    · rw [hpe]
      exact hrn
    · exact h3 p hpm
  · intro p hp
    rcases (mem_setA_iff h1).mp hp with hpe | ⟨hpm, hpk⟩
    · rw [hpe]
      show lookupA (setA ts tn en) r.tableName = some en
      rw [hrt]
      exact lookupA_setA_self ts tn en
    · have hne : p.2.tableName ≠ tn := by
        intro he
        have := h4 p hpm
        rw [he, htn] at this
        exact Option.noConfusion this
      rw [lookupA_setA_ne ts en hne]
      exact h4 p hpm
  · intro q hq
    rcases (mem_setA_iff h2).mp hq with hqe | ⟨hqm, hqk⟩
    · rw [hqe]
      show (lookupA (setA es en r) en).map (fun r => r.tableName) = some tn
      rw [lookupA_setA_self]
      simp [hrt]
    · have h5q := h5 q hqm
      have hq2 : q.2 ≠ en := by
        intro he
        rw [he, hen] at h5q
        simp at h5q
      rw [lookupA_setA_ne es r hq2]
      exact h5q

/-- Re-registration that keeps the table name. -/
theorem catInvM_update_same {es : List (String × Rec)} {ts : List (String × String)}
    (h : CatInvM es ts) {en : String} {rec0 r1 : Rec}
    (hen : lookupA es en = some rec0)
    (hrn : r1.entityName = en) (hrt : r1.tableName = rec0.tableName) :
    CatInvM (setA es en r1) ts := by
  obtain ⟨h1, h2, h3, h4, h5⟩ := h
  have hmem0 : (en, rec0) ∈ es := lookupA_mem hen
  refine ⟨nodup_keysA_setA h1, h2, ?_, ?_, ?_⟩
  · intro p hp
    rcases (mem_setA_iff h1).mp hp with hpe | ⟨hpm, hpk⟩
    · rw [hpe]
      exact hrn
    · exact h3 p hpm
  · intro p hp
    rcases (mem_setA_iff h1).mp hp with hpe | ⟨hpm, hpk⟩
    · rw [hpe]
      show lookupA ts r1.tableName = some en
      rw [hrt]
      exact h4 (en, rec0) hmem0
    · exact h4 p hpm
  · intro q hq
    have h5q := h5 q hq
    by_cases hq2 : q.2 = en
    · rw [hq2] at h5q ⊢
      rw [hen] at h5q
      simp at h5q
      rw [lookupA_setA_self]
      simp [hrt, h5q]
    · rw [lookupA_setA_ne es r1 hq2]
      exact h5q

/-- Re-registration that renames the table. -/
theorem catInvM_update_rename {es : List (String × Rec)} {ts : List (String × String)}
    (h : CatInvM es ts) {en tn : String} {rec0 r1 : Rec}
    (hen : lookupA es en = some rec0) (htn : lookupA ts tn = none)
    (_hold : rec0.tableName ≠ tn)
    (hrn : r1.entityName = en) (hrt : r1.tableName = tn) :
    CatInvM (setA es en r1) (setA (delA ts rec0.tableName) tn en) := by
  obtain ⟨h1, h2, h3, h4, h5⟩ := h
  have hmem0 : (en, rec0) ∈ es := lookupA_mem hen
  refine ⟨nodup_keysA_setA h1, nodup_keysA_setA (nodup_keysA_delA h2), ?_, ?_, ?_⟩
  · intro p hp
    rcases (mem_setA_iff h1).mp hp with hpe | ⟨hpm, hpk⟩
    · rw [hpe]
      exact hrn
    · exact h3 p hpm
  · intro p hp
    rcases (mem_setA_iff h1).mp hp with hpe | ⟨hpm, hpk⟩
    · rw [hpe]
      show lookupA (setA (delA ts rec0.tableName) tn en) r1.tableName = some en
      rw [hrt]
      exact lookupA_setA_self _ tn en
    · have hnetn : p.2.tableName ≠ tn := by
        intro he
        have := h4 p hpm
        rw [he, htn] at this
        exact Option.noConfusion this
      have hneold : p.2.tableName ≠ rec0.tableName := by
        intro he
        have e1 := h4 p hpm
        have e2 := h4 (en, rec0) hmem0
        rw [he] at e1
        rw [e1] at e2
        injection e2 with e2
        exact hpk e2
      rw [lookupA_setA_ne _ en hnetn, lookupA_delA_ne ts hneold]
      exact h4 p hpm
  · intro q hq
    rcases (mem_setA_iff (nodup_keysA_delA h2)).mp hq with hqe | ⟨hqm, hqk⟩
    · rw [hqe]
      show (lookupA (setA es en r1) en).map (fun r => r.tableName) = some tn
      rw [lookupA_setA_self]
      simp [hrt]
    · have hqts : q ∈ ts := mem_delA hqm
      have hqold : q.1 ≠ rec0.tableName := fst_ne_of_mem_delA h2 hqm
      have h5q := h5 q hqts
      have hq2 : q.2 ≠ en := by
        intro he
        rw [he, hen] at h5q
        simp at h5q
        exact hqold h5q.symm
      rw [lookupA_setA_ne es r1 hq2]
      exact h5q

/-- Releasing a record removes it from both maps. -/
theorem catInvM_delete {es : List (String × Rec)} {ts : List (String × String)}
    (h : CatInvM es ts) {en : String} {rec0 : Rec}
    (hen : lookupA es en = some rec0) :
    CatInvM (delA es en) (delA ts rec0.tableName) := by
  obtain ⟨h1, h2, h3, h4, h5⟩ := h
  have hmem0 : (en, rec0) ∈ es := lookupA_mem hen
  refine ⟨nodup_keysA_delA h1, nodup_keysA_delA h2, ?_, ?_, ?_⟩
  · intro p hp
    exact h3 p (mem_delA hp)
  · intro p hp
    have hpm : p ∈ es := mem_delA hp
    have hpk : p.1 ≠ en := fst_ne_of_mem_delA h1 hp
    have hneold : p.2.tableName ≠ rec0.tableName := by
      intro he
      have e1 := h4 p hpm
      have e2 := h4 (en, rec0) hmem0
      rw [he] at e1
      rw [e1] at e2
      injection e2 with e2
      exact hpk e2
    rw [lookupA_delA_ne ts hneold]
    exact h4 p hpm
  · intro q hq
    have hqts : q ∈ ts := mem_delA hq
    have hqold : q.1 ≠ rec0.tableName := fst_ne_of_mem_delA h2 hq
    have h5q := h5 q hqts
    have hq2 : q.2 ≠ en := by
      intro he
      rw [he, hen] at h5q
      simp at h5q
      exact hqold h5q.symm
    rw [lookupA_delA_ne es hq2]
    exact h5q

/-! ## Facts about the prefix resolver cache -/

theorem mem_setA_weak {m : List (String × α)} {k : String} {v : α} {p : String × α}
    (h : p ∈ setA m k v) : p = (k, v) ∨ p ∈ m := by
  induction m with
  | nil => simpa [setA] using h
  | cons q rest ih =>
    obtain ⟨k0, v0⟩ := q
    by_cases h0 : k0 = k
    · subst h0
      rw [show setA ((k0, v0) :: rest) k0 v = (k0, v) :: rest by simp [setA]] at h
      rcases List.mem_cons.mp h with h | h
      · exact Or.inl h
      · exact Or.inr (List.mem_cons_of_mem _ h)
    · rw [show setA ((k0, v0) :: rest) k v = (k0, v0) :: setA rest k v by
        simp [setA, h0]] at h
      rcases List.mem_cons.mp h with h | h
      · exact Or.inr (List.mem_cons.mpr (Or.inl h))
      · rcases ih h with h | h
        · exact Or.inl h
        · exact Or.inr (List.mem_cons_of_mem _ h)

theorem scopePfxList_ne_nil (raw : List Char) : scopePfxList raw ≠ [] := by
  unfold scopePfxList
  dsimp only
  by_cases hcond :
      ((if (sanitize raw).isEmpty then "caller".data else sanitize raw) == raw &&
        isFullWordStr raw) = true
  · rw [if_pos hcond]
    rw [Bool.and_eq_true] at hcond
    intro h
    rw [h] at hcond
    simp [isFullWordStr] at hcond
  · rw [if_neg hcond]
    simp

theorem scopePfx_ne_empty (s : String) : scopePfx s ≠ "" := by
  intro h
  exact scopePfxList_ne_nil (jsTrim s.data) (by simpa using congrArg String.data h)

theorem getScopePfx_of_lookup {c : List (String × String)} {k v : String}
    (h : lookupA c k = some v) (hv : v ≠ "") : getScopePfx c k = (c, v) := by
  unfold getScopePfx
  rw [h]
  simp [hv]

theorem getScopePfx_lookup (c : List (String × String)) (k : String) :
    lookupA (getScopePfx c k).1 k = some (getScopePfx c k).2 ∧
      (getScopePfx c k).2 ≠ "" := by
  unfold getScopePfx
  cases hlk : lookupA c k with
  | none =>
    exact ⟨lookupA_setA_self c k (scopePfx k), scopePfx_ne_empty k⟩
  | some v =>
    by_cases hv : v = ""
    · simp only [hv, if_pos rfl]
      exact ⟨lookupA_setA_self c k (scopePfx k), scopePfx_ne_empty k⟩
    · simp only [if_neg hv]
      exact ⟨hlk, hv⟩

/-- The memo cache is stable: once a key is resolved, resolving it again
returns the same prefix and leaves the cache unchanged. -/
theorem getScopePfx_stable (c : List (String × String)) (k : String) :
    getScopePfx (getScopePfx c k).1 k = ((getScopePfx c k).1, (getScopePfx c k).2) :=
  getScopePfx_of_lookup (getScopePfx_lookup c k).1 (getScopePfx_lookup c k).2

/-- A cache whose every entry is the resolver's answer for its key. -/
def CacheOk (c : List (String × String)) : Prop :=
  ∀ p ∈ c, p.2 = scopePfx p.1

theorem cacheOk_setA {c : List (String × String)} (h : CacheOk c) (k : String) :
    CacheOk (setA c k (scopePfx k)) := by
  intro p hp
  rcases mem_setA_weak hp with hp | hp
  · rw [hp]
  · exact h p hp

theorem getScopePfx_cacheOk {c : List (String × String)} (h : CacheOk c) (k : String) :
    (getScopePfx c k).2 = scopePfx k ∧ CacheOk (getScopePfx c k).1 := by
  unfold getScopePfx
  cases hlk : lookupA c k with
  | none => exact ⟨rfl, cacheOk_setA h k⟩
  | some v =>
    by_cases hv : v = ""
    · simp only [hv, if_pos rfl]
      exact ⟨rfl, cacheOk_setA h k⟩
    · simp only [if_neg hv]
      exact ⟨h _ (lookupA_mem hlk), h⟩

/-! ## Conflict-check characterisations -/

theorem entityConflictB_false_iff {st : PState} {en k : String} :
    entityConflictB st en k = false ↔
      ∀ r, lookupA st.entities en = some r → r.scopeKey = k := by
  unfold entityConflictB
  cases h : lookupA st.entities en with
  | none => simp
  | some r => simp

theorem tableConflictB_false_iff {st : PState} {tn en : String} :
    tableConflictB st tn en = false ↔
      ∀ o, lookupA st.tableToEntityName tn = some o → o = en := by
  unfold tableConflictB
  cases h : lookupA st.tableToEntityName tn with
  | none => simp
  | some o => simp

theorem tableConflictB_true_iff {st : PState} {tn en : String} :
    tableConflictB st tn en = true ↔
      ∃ o, lookupA st.tableToEntityName tn = some o ∧ o ≠ en := by
  unfold tableConflictB
  cases h : lookupA st.tableToEntityName tn with
  | none => simp
  | some o => simp

/-! ## Invariant preservation by the operations -/

theorem catInvM_nil : CatInvM [] [] := by
  refine ⟨List.nodup_nil, List.nodup_nil, ?_, ?_, ?_⟩ <;> intro p hp <;> simp at hp

theorem regNew_snd (k pfx : String) (plan : Plan) (schema : Schema) (opts : ROpts)
    (st : PState) :
    (regNew k pfx plan schema opts st).2 =
      Except.ok ⟨plan.entityName, plan.tableName, st.nextHandle⟩ := rfl

theorem regUpdate_snd (pfx : String) (plan : Plan) (rec0 : Rec) (schema : Schema)
    (opts : ROpts) (st : PState) :
    (regUpdate pfx plan rec0 schema opts st).2 =
      Except.ok ⟨plan.entityName, plan.tableName, rec0.handleId⟩ := rfl

theorem catInv_regBody {k pfx : String} {plan : Plan} {schema : Schema} {opts : ROpts}
    {st : PState} (h : CatInv st) :
    CatInv (regBody k pfx plan schema opts st).1 := by
  unfold regBody
  by_cases hec : entityConflictB st plan.entityName k = true
  · rw [if_pos hec]
    exact h
  · rw [if_neg hec]
    by_cases htc : tableConflictB st plan.tableName plan.entityName = true
    · rw [if_pos htc]
      exact h
    · rw [if_neg htc]
      rw [Bool.not_eq_true] at htc
      cases hlk : lookupA st.entities plan.entityName with
      | none =>
        have htn : lookupA st.tableToEntityName plan.tableName = none := by
          cases hts : lookupA st.tableToEntityName plan.tableName with
          | none => rfl
          | some o =>
            have ho : o = plan.entityName := (tableConflictB_false_iff.mp htc) o hts
            rcases (catInvM_table_iff h plan.tableName plan.entityName).mp
              (by rw [hts, ho]) with ⟨r, hr, _⟩
            rw [hlk] at hr
            exact Option.noConfusion hr
        exact catInvM_insert h hlk htn rfl rfl
      | some rec0 =>
        have hname : rec0.entityName = plan.entityName :=
          h.2.2.1 (plan.entityName, rec0) (lookupA_mem hlk)
        by_cases heq : rec0.tableName = plan.tableName
        · show CatInvM (setA st.entities plan.entityName _)
            (if rec0.tableName ≠ plan.tableName then
              setA (delA st.tableToEntityName rec0.tableName) plan.tableName
                plan.entityName
            else st.tableToEntityName)
          rw [if_neg (not_not_intro heq)]
          exact catInvM_update_same h hlk hname heq.symm
        · have htn : lookupA st.tableToEntityName plan.tableName = none := by
            cases hts : lookupA st.tableToEntityName plan.tableName with
            | none => rfl
            | some o =>
              have ho : o = plan.entityName := (tableConflictB_false_iff.mp htc) o hts
              rcases (catInvM_table_iff h plan.tableName plan.entityName).mp
                (by rw [hts, ho]) with ⟨r, hr, hrt⟩
              rw [hlk] at hr
              injection hr with hr
              exact (heq (by rw [hr]; exact hrt)).elim
          show CatInvM (setA st.entities plan.entityName _)
            (if rec0.tableName ≠ plan.tableName then
              setA (delA st.tableToEntityName rec0.tableName) plan.tableName
                plan.entityName
            else st.tableToEntityName)
          rw [if_pos heq]
          exact catInvM_update_rename h hlk htn heq hname rfl

theorem catInv_registerEntityFor (k : String) (schema : Schema) (opts : ROpts)
    {st0 : PState} (h : CatInv st0) :
    CatInv (registerEntityFor k schema opts st0).1 := by
  unfold registerEntityFor
  cases hplan : mkPlan (getScopePfx st0.scopePfxCache k).2 schema opts with
  | error e => exact h
  | ok plan => exact catInv_regBody h

theorem catInv_releaseEntity (en k : String) {st : PState} (h : CatInv st) :
    CatInv (releaseEntity en k st) := by
  unfold releaseEntity
  split
  · exact h
  · next rec0 hlk =>
    split
    · exact h
    · split
      · exact catInvM_delete h hlk
      · split
        · exact catInvM_delete h hlk
        · exact catInvM_delete h hlk

theorem catInv_initStep (b : Bool) {st : PState} (h : CatInv st) :
    CatInv (initStep b st).1 := by
  unfold initStep
  by_cases hi : st.initDone = true
  · rw [if_pos hi]
    exact h
  · rw [if_neg hi]
    by_cases hb : b = true
    · rw [if_pos hb]
      exact h
    · rw [if_neg hb]
      exact h

theorem catInv_stopStep {st : PState} (h : CatInv st) : CatInv (stopStep st) := h

theorem catInv_stopStepCore (st : PState) : CatInv (stopStepCore st) := catInvM_nil

/-! ## Result characterisation of a successful registration -/

theorem registerEntityFor_eq_regBody {k : String} {schema : Schema} {opts : ROpts}
    {st0 : PState} {plan : Plan}
    (hplan : mkPlan (getScopePfx st0.scopePfxCache k).2 schema opts = Except.ok plan) :
    registerEntityFor k schema opts st0 =
      regBody k (getScopePfx st0.scopePfxCache k).2 plan schema opts
        { st0 with scopePfxCache := (getScopePfx st0.scopePfxCache k).1 } := by
  unfold registerEntityFor
  rw [hplan]

theorem regBody_cache (k pfx : String) (plan : Plan) (schema : Schema) (opts : ROpts)
    (st : PState) :
    (regBody k pfx plan schema opts st).1.scopePfxCache = st.scopePfxCache := by
  unfold regBody
  by_cases hec : entityConflictB st plan.entityName k = true
  · rw [if_pos hec]
  · rw [if_neg hec]
    by_cases htc : tableConflictB st plan.tableName plan.entityName = true
    · rw [if_pos htc]
    · rw [if_neg htc]
      cases hlk : lookupA st.entities plan.entityName with
      | none => rfl
      | some rec0 => rfl

/-- A successful fresh registration: the handle carries the planned names
and a fresh identity, both maps gained the entry, the flag defaults to
`false` unless supplied, and the entity count grew by one. -/
theorem regBody_ok_new {k pfx : String} {plan : Plan} {schema : Schema} {opts : ROpts}
    {st st' : PState} {r : RegResult}
    (hlk : lookupA st.entities plan.entityName = none)
    (h : regBody k pfx plan schema opts st = (st', Except.ok r)) :
    r = ⟨plan.entityName, plan.tableName, st.nextHandle⟩ ∧
    st'.scopePfxCache = st.scopePfxCache ∧
    lookupA st'.tableToEntityName plan.tableName = some plan.entityName ∧
    ∃ rec1, lookupA st'.entities plan.entityName = some rec1 ∧
      rec1.scopeKey = k ∧
      rec1.entityName = plan.entityName ∧
      rec1.tableName = plan.tableName ∧
      rec1.handleId = r.handleId ∧
      rec1.dropTableOnDispose = opts.dropTableOnDispose.getD false ∧
      st'.entities.length = st.entities.length + 1 := by
  unfold regBody at h
  by_cases hec : entityConflictB st plan.entityName k = true
  · rw [if_pos hec] at h
    injection h with h1 h2
    exact absurd h2 (by simp)
  · rw [if_neg hec] at h
    by_cases htc : tableConflictB st plan.tableName plan.entityName = true
    · rw [if_pos htc] at h
      injection h with h1 h2
      exact absurd h2 (by simp)
    · rw [if_neg htc] at h
      rw [hlk] at h
      unfold regNew at h
      injection h with h1 h2
      injection h2 with h2
      subst h1
      refine ⟨h2.symm, rfl, lookupA_setA_self _ _ _, ?_⟩
      refine ⟨_, lookupA_setA_self _ _ _, rfl, rfl, rfl, by rw [← h2], rfl, ?_⟩
      have hnm : plan.entityName ∉ keysA st.entities := lookupA_eq_none_iff.mp hlk
      exact length_setA_of_not_mem _ hnm

/-- A successful same-scope re-registration: the very same handle identity
comes back with the planned names, the record was updated in place
(explicit options override the stored flag, unspecified ones keep it), the
table owner map points the (possibly renamed) table at the entity, and the
entity count is unchanged. -/
theorem regBody_ok_update {k pfx : String} {plan : Plan} {schema : Schema}
    {opts : ROpts} {st st' : PState} {r : RegResult} {rec0 : Rec} (hInv : CatInv st)
    (hlk : lookupA st.entities plan.entityName = some rec0)
    (h : regBody k pfx plan schema opts st = (st', Except.ok r)) :
    r = ⟨plan.entityName, plan.tableName, rec0.handleId⟩ ∧
    st'.scopePfxCache = st.scopePfxCache ∧
    lookupA st'.tableToEntityName plan.tableName = some plan.entityName ∧
    ∃ rec1, lookupA st'.entities plan.entityName = some rec1 ∧
      rec1.scopeKey = k ∧
      rec1.entityName = rec0.entityName ∧
      rec1.tableName = plan.tableName ∧
      rec1.handleId = rec0.handleId ∧
      rec1.dropTableOnDispose = opts.dropTableOnDispose.getD rec0.dropTableOnDispose ∧
      st'.entities.length = st.entities.length := by
  unfold regBody at h
  by_cases hec : entityConflictB st plan.entityName k = true
  · rw [if_pos hec] at h
    injection h with h1 h2
    exact absurd h2 (by simp)
  · rw [if_neg hec] at h
    by_cases htc : tableConflictB st plan.tableName plan.entityName = true
    · rw [if_pos htc] at h
      injection h with h1 h2
      exact absurd h2 (by simp)
    · rw [if_neg htc] at h
      rw [hlk] at h
      unfold regUpdate at h
      injection h with h1 h2
      injection h2 with h2
      subst h1
      refine ⟨h2.symm, rfl, ?_, ?_⟩
      · show lookupA (if rec0.tableName ≠ plan.tableName then
            setA (delA st.tableToEntityName rec0.tableName) plan.tableName
              plan.entityName
          else st.tableToEntityName) plan.tableName = some plan.entityName
        by_cases heq : rec0.tableName = plan.tableName
        · rw [if_neg (not_not_intro heq)]
          have := hInv.2.2.2.1 (plan.entityName, rec0) (lookupA_mem hlk)
          rw [heq] at this
          exact this
        · rw [if_pos heq]
          exact lookupA_setA_self _ _ _
      · rw [Bool.not_eq_true] at hec
        have hsc : rec0.scopeKey = k := (entityConflictB_false_iff.mp hec) rec0 hlk
        refine ⟨_, lookupA_setA_self _ _ _, hsc, rfl, rfl, rfl, rfl, ?_⟩
        have hm : plan.entityName ∈ keysA st.entities :=
          mem_keysA_of_mem (lookupA_mem hlk)
        exact length_setA_of_mem _ hm

/-! ## Queue behaviour under a positive depth counter -/

theorem runNested_pos {s : QState} (ns : List Nat) (h : s.depth > 0) :
    (runNested s ns).tailQ = s.tailQ ∧
    ∃ tl, (runNested s ns).log = s.log ++ tl := by
  induction ns generalizing s with
  | nil => exact ⟨rfl, [], by simp [runNested]⟩
  | cons n rest ih =>
    rw [show runNested s (n :: rest) =
      runNested (if s.depth > 0 then
        { s with log := s.log ++ [QEvent.arrive n, QEvent.start n, QEvent.finish n] }
      else
        { s with
          tailQ := s.tailQ ++ [(n, [[]])]
          log := s.log ++ [QEvent.arrive n] }) rest by
        simp [runNested, List.foldl_cons]]
    rw [if_pos h]
    obtain ⟨h1, tl, h2⟩ := @ih { s with
      log := s.log ++ [QEvent.arrive n, QEvent.start n, QEvent.finish n] } h
    refine ⟨h1, [QEvent.arrive n, QEvent.start n, QEvent.finish n] ++ tl, ?_⟩
    rw [h2]
    simp

theorem runSegment_pos {s : QState} {id : Nat} {seg : List Nat}
    {rest : List (List Nat)} {queued : Bool} (h : s.depth > 0) :
    (runSegment s id seg rest queued).tailQ = s.tailQ ∧
    ∃ tl, (runSegment s id seg rest queued).log = s.log ++ tl := by
  obtain ⟨h1, tl, h2⟩ := runNested_pos seg h
  cases rest with
  | nil =>
    cases queued with
    | true =>
      refine ⟨h1, tl ++ [QEvent.finish id], ?_⟩
      show (runNested s seg).log ++ [QEvent.finish id] = s.log ++ (tl ++ [QEvent.finish id])
      rw [h2]
      simp
    | false =>
      refine ⟨h1, tl ++ [QEvent.finish id], ?_⟩
      show (runNested s seg).log ++ [QEvent.finish id] = s.log ++ (tl ++ [QEvent.finish id])
      rw [h2]
      simp
  | cons a b =>
    exact ⟨h1, tl, h2⟩

/-! ## Facts about the sanitiser and the canonical branch -/

theorem isWordChar_not_ws {c : Char} (h : isWordChar c = true) :
    isJsWhitespace c = false := by
  unfold isWordChar at h
  unfold isJsWhitespace
  simp only [Bool.or_eq_true, Bool.and_eq_true, decide_eq_true_eq, beq_iff_eq] at h
  simp only [decide_eq_false_iff_not, List.mem_cons, List.not_mem_nil, or_false]
  intro hmem
  omega

theorem dropWhile_eq_of_head {p : Char → Bool} {l : List Char}
    (h : ∀ c ∈ l, p c = false) : l.dropWhile p = l := by
  cases l with
  | nil => rfl
  | cons c rest =>
    rw [List.dropWhile_cons]
    simp [h c (List.mem_cons_self c rest)]

theorem jsTrim_of_word {l : List Char} (h : ∀ c ∈ l, isWordChar c = true) :
    jsTrim l = l := by
  unfold jsTrim
  have hws : ∀ c ∈ l, isJsWhitespace c = false := fun c hc => isWordChar_not_ws (h c hc)
  rw [dropWhile_eq_of_head hws]
  rw [dropWhile_eq_of_head (fun c hc => hws c (List.mem_reverse.mp hc))]
  exact List.reverse_reverse l

theorem sanitizeAux_of_word {l : List Char} (h : ∀ c ∈ l, isWordChar c = true) :
    ∀ flag, sanitizeAux flag l = l := by
  induction l with
  | nil => intro flag; rfl
  | cons c rest ih =>
    intro flag
    unfold sanitizeAux
    rw [if_pos (h c (List.mem_cons_self c rest))]
    rw [ih (fun x hx => h x (List.mem_cons_of_mem c hx))]

theorem sanitize_of_word {l : List Char} (h : ∀ c ∈ l, isWordChar c = true) :
    sanitize l = l := sanitizeAux_of_word h false

/-- A raw scope key consisting only of `[A-Za-z0-9_]` characters is its own
prefix. -/
theorem scopePfx_of_word {s : String} (hne : s.data ≠ [])
    (hw : ∀ c ∈ s.data, isWordChar c = true) : scopePfx s = s := by
  unfold scopePfx
  rw [jsTrim_of_word hw]
  unfold scopePfxList
  dsimp only
  rw [sanitize_of_word hw]
  have hfw : isFullWordStr s.data = true := by
    unfold isFullWordStr
    rw [Bool.and_eq_true]
    constructor
    · cases hd : s.data with
      | nil => exact absurd hd hne
      | cons a b => simp
    · exact List.all_eq_true.mpr hw
  have hempty : s.data.isEmpty = false := by
    cases hd : s.data with
    | nil => exact absurd hd hne
    | cons a b => rfl
  rw [show (if s.data.isEmpty then "caller".data else s.data) = s.data by
    rw [hempty]; simp]
  rw [show (s.data == s.data && isFullWordStr s.data) = true by rw [hfw]; simp]
  rw [if_pos rfl]

theorem hexWord_length (x : Nat) : (hexWord x).length = 8 := by
  simp [hexWord]

theorem sha1hex_length (s : String) : (sha1hex s).length = 40 := by
  unfold sha1hex
  dsimp only
  simp [hexWord_length]

def isHexDigit (c : Char) : Bool :=
  (48 ≤ c.toNat && c.toNat ≤ 57) || (97 ≤ c.toNat && c.toNat ≤ 102)

theorem isHexDigit_hexDigit {n : Nat} (h : n ≤ 15) : isHexDigit (hexDigit n) = true := by
  interval_cases n <;> decide

theorem sha1hex_hex (s : String) : ∀ c ∈ sha1hex s, isHexDigit c = true := by
  have hword : ∀ (x : Nat), ∀ c ∈ hexWord x, isHexDigit c = true := by
    intro x c hc
    unfold hexWord at hc
    rcases List.mem_map.mp hc with ⟨i, _, hci⟩
    rw [← hci]
    exact isHexDigit_hexDigit (Nat.and_le_right)
  intro c hc
  unfold sha1hex at hc
  dsimp only at hc
  simp only [List.mem_append] at hc
  rcases hc with ((((hc | hc) | hc) | hc) | hc) <;> exact hword _ c hc

/-! ## String-level injectivity of the table-name join -/

def tableNameOf (k base : String) : String := scopePfx k ++ "_" ++ base

theorem append_cancel_of_eq {k1 k2 t : String}
    (h : k1 ++ t = k2 ++ t) : k1 = k2 := by
  have hd : k1.data ++ t.data = k2.data ++ t.data := by
    have := congrArg String.data h
    simpa [String.data_append] using this
  have hlen : k1.data.length = k2.data.length := by
    have := congrArg List.length hd
    rw [List.length_append, List.length_append] at this
    omega
  have := (List.append_inj hd hlen).1
  cases k1
  cases k2
  exact congrArg String.mk this

/-! ## Error-path characterisation of registration -/

theorem regBody_tableConflict_iff {k pfx : String} {plan : Plan} {schema : Schema}
    {opts : ROpts} {st : PState} :
    (regBody k pfx plan schema opts st).2 = Except.error MErr.tableNameConflict ↔
      entityConflictB st plan.entityName k = false ∧
      tableConflictB st plan.tableName plan.entityName = true := by
  unfold regBody
  by_cases hec : entityConflictB st plan.entityName k = true
  · rw [if_pos hec]
    simp [hec]
  · rw [if_neg hec]
    rw [Bool.not_eq_true] at hec
    by_cases htc : tableConflictB st plan.tableName plan.entityName = true
    · rw [if_pos htc]
      simp [hec, htc]
    · rw [if_neg htc]
      rw [Bool.not_eq_true] at htc
      cases hlk : lookupA st.entities plan.entityName with
      | none =>
        constructor
        · intro hcontra
          have hh : (Except.ok (⟨plan.entityName, plan.tableName, st.nextHandle⟩ :
              RegResult) : Except MErr RegResult) =
              Except.error MErr.tableNameConflict := hcontra
          exact absurd hh (by simp)
        · rintro ⟨h1, h2⟩
          rw [htc] at h2
          exact absurd h2 (by simp)
      | some rec0 =>
        constructor
        · intro hcontra
          have hh : (Except.ok (⟨plan.entityName, plan.tableName, rec0.handleId⟩ :
              RegResult) : Except MErr RegResult) =
              Except.error MErr.tableNameConflict := hcontra
          exact absurd hh (by simp)
        · rintro ⟨h1, h2⟩
          rw [htc] at h2
          exact absurd h2 (by simp)

theorem regBody_error_fst {k pfx : String} {plan : Plan} {schema : Schema}
    {opts : ROpts} {st : PState} {e : MErr}
    (h : (regBody k pfx plan schema opts st).2 = Except.error e) :
    (regBody k pfx plan schema opts st).1 = st := by
  unfold regBody at h ⊢
  by_cases hec : entityConflictB st plan.entityName k = true
  · rw [if_pos hec]
  · rw [if_neg hec] at h ⊢
    by_cases htc : tableConflictB st plan.tableName plan.entityName = true
    · rw [if_pos htc]
    · rw [if_neg htc] at h ⊢
      cases hlk : lookupA st.entities plan.entityName with
      | none =>
        rw [hlk] at h
        have hh : (Except.ok (⟨plan.entityName, plan.tableName, st.nextHandle⟩ :
            RegResult) : Except MErr RegResult) = Except.error e := h
        exact absurd hh (by simp)
      | some rec0 =>
        rw [hlk] at h
        have hh : (Except.ok (⟨plan.entityName, plan.tableName, rec0.handleId⟩ :
            RegResult) : Except MErr RegResult) = Except.error e := h
        exact absurd hh (by simp)

theorem mkPlan_congr_names {pfx : String} {schema : Schema} {o1 o2 : ROpts}
    (hn : o2.entityName = o1.entityName) (ht : o2.tableName = o1.tableName) :
    mkPlan pfx schema o2 = mkPlan pfx schema o1 := by
  unfold mkPlan
  rw [hn, ht]

/-! ## Small set fact -/

theorem mem_addSet_self (l : List String) (x : String) : x ∈ addSet l x := by
  unfold addSet
  by_cases h : x ∈ l
  · rw [if_pos h]
    exact h
  · rw [if_neg h]
    simp

/-! # Claim theorems

Concrete states used by witnesses and counterexamples. -/

instance decEqExcept {ε α : Type} [DecidableEq ε] [DecidableEq α] :
    DecidableEq (Except ε α)
  | Except.ok a, Except.ok b =>
    if h : a = b then isTrue (congrArg Except.ok h)
    else isFalse (fun hc => h (Except.ok.inj hc))
  | Except.error a, Except.error b =>
    if h : a = b then isTrue (congrArg Except.error h)
    else isFalse (fun hc => h (Except.error.inj hc))
  | Except.ok _, Except.error _ => isFalse (fun hc => Except.noConfusion hc)
  | Except.error _, Except.ok _ => isFalse (fun hc => Except.noConfusion hc)

instance decCatInvM (es : List (String × Rec)) (ts : List (String × String)) :
    Decidable (CatInvM es ts) := by
  unfold CatInvM
  infer_instance

instance decCatInv (st : PState) : Decidable (CatInv st) := by
  unfold CatInv
  infer_instance

def schemaU : Schema := ⟨some "u", some "u", some "u", some "u", false, false, 0⟩

def emptyState : PState :=
  { configPresent := false, ormInstance := false, initDone := false,
    ormCloseCancels := 0, entities := [], tableToEntityName := [],
    pendingDropTables := [], scopePfxCache := [],
    migrationsCfg := ⟨none, 0⟩, nextHandle := 0, trace := [] }

/-! ## C1 -/

/-- C1 (amended).  Catalog mutations go through the Serial Executor, whose
model is `qstep`/`qrun`: (1) in every reachable state the depth counter
equals the number of queued tasks in flight, which never exceeds one — so
queued mutations are mutually exclusive among themselves; (2) a `run` call
arriving while the counter is zero is appended at the back of the queue;
(3) the dispatcher always starts the task at the front of the queue, so
queued tasks start in FIFO arrival order; (4) a `run` call arriving while
the depth counter is positive — which covers nested calls from inside an
executing queued task, but also any call arriving while a queued task is
suspended at an `await` — is not appended and starts inline immediately
(and can therefore overlap a suspended queued mutation, which is why the
original claim's unconditional at-most-one-in-flight guarantee fails; see
the counterexample). -/
theorem C1_serial_executor_amended :
    (∀ steps : List QStep,
      (qrun steps).depth = qcnt (qrun steps).active ∧ (qrun steps).depth ≤ 1) ∧
    (∀ (s : QState) (id : Nat) (segs : List (List Nat)), s.depth = 0 →
      qstep s (QStep.call id segs) =
        { s with tailQ := s.tailQ ++ [(id, segs)], log := s.log ++ [QEvent.arrive id] }) ∧
    (∀ (s : QState) (id : Nat) (segs : List (List Nat)) (restQ : List (Nat × List (List Nat))),
      s.depth = 0 → s.tailQ = (id, segs) :: restQ →
      (qstep s QStep.dispatch).tailQ = restQ ∧
      ∃ tl, (qstep s QStep.dispatch).log = s.log ++ QEvent.start id :: tl) ∧
    (∀ (s : QState) (id : Nat) (segs : List (List Nat)), s.depth > 0 →
      (qstep s (QStep.call id segs)).tailQ = s.tailQ ∧
      ∃ tl, (qstep s (QStep.call id segs)).log =
        s.log ++ QEvent.arrive id :: QEvent.start id :: tl) := by
  refine ⟨qrun_inv, ?_, ?_, ?_⟩
  · intro s id segs h0
    have hneg : ¬ s.depth > 0 := by omega
    simp only [qstep, if_neg hneg]
  · intro s id segs restQ h0 htq
    simp only [qstep, if_pos h0]
    rw [htq]
    cases segs with
    | nil =>
      refine ⟨rfl, [QEvent.finish id], ?_⟩
      show (s.log ++ [QEvent.start id]) ++ [QEvent.finish id] = _
      simp
    | cons seg rest =>
      have hpos : ({ s with
          tailQ := restQ
          depth := s.depth + 1
          log := s.log ++ [QEvent.start id] } : QState).depth > 0 := by
        show s.depth + 1 > 0
        omega
      obtain ⟨ht, tl, hl⟩ := runSegment_pos hpos
      refine ⟨ht, tl, ?_⟩
      rw [hl]
      simp
  · intro s id segs hpos
    simp only [qstep, if_pos hpos]
    cases segs with
    | nil =>
      refine ⟨rfl, [QEvent.finish id], ?_⟩
      show (s.log ++ [QEvent.arrive id]) ++ [QEvent.start id, QEvent.finish id] = _
      simp
    | cons seg rest =>
      have hpos2 : ({ s with
          log := (s.log ++ [QEvent.arrive id]) ++ [QEvent.start id] } : QState).depth > 0 :=
        hpos
      obtain ⟨ht, tl, hl⟩ := runSegment_pos hpos2
      refine ⟨ht, tl, ?_⟩
      rw [hl]
      simp

/-- C1 counterexample.  Task 0 (two segments, so it suspends at an `await`
after its first segment) is queued and started; while it is suspended —
still in flight — an unrelated top-level `run` call for task 1 arrives.
Because the depth counter is still positive, task 1 is not appended
(`tailQ` stays empty) and executes inline to completion before task 0
finishes: its `start 1`/`finish 1` sit strictly between `start 0` and
`finish 0` in the log, and while it ran, task 0 was still active.  So two
mutations were in flight at once even though task 1 was not a nested call
issued from inside task 0, refuting the claim that inline execution is
limited to nested calls and that at most one mutation is ever in flight. -/
theorem C1_serial_executor_cex :
    (qrun [QStep.call 0 [[], []], QStep.dispatch, QStep.call 1 [[]], QStep.resume 0]).log =
      [QEvent.arrive 0, QEvent.start 0, QEvent.arrive 1, QEvent.start 1,
        QEvent.finish 1, QEvent.finish 0] ∧
    (qrun [QStep.call 0 [[], []], QStep.dispatch]).active = [⟨0, [[]], true⟩] ∧
    (qrun [QStep.call 0 [[], []], QStep.dispatch]).depth = 1 ∧
    (qrun [QStep.call 0 [[], []], QStep.dispatch, QStep.call 1 [[]]]).active =
      [⟨0, [[]], true⟩] ∧
    (qrun [QStep.call 0 [[], []], QStep.dispatch, QStep.call 1 [[]]]).tailQ = [] := by
  decide

/-- Witness for C1: each part of the amended theorem applied at a concrete
state. -/
theorem C1_serial_executor_witness :
    ((qrun [QStep.call 3 [[]]]).depth = qcnt (qrun [QStep.call 3 [[]]]).active) ∧
    (qstep qinit (QStep.call 7 [[]]) =
      { qinit with
        tailQ := qinit.tailQ ++ [(7, [[]])]
        log := qinit.log ++ [QEvent.arrive 7] }) ∧
    ((qstep (⟨0, [(4, [[]])], [], []⟩ : QState) QStep.dispatch).tailQ = []) ∧
    ((qstep (⟨1, [], [⟨9, [[]], true⟩], []⟩ : QState) (QStep.call 5 [[]])).tailQ = []) := by
  refine ⟨(C1_serial_executor_amended.1 [QStep.call 3 [[]]]).1,
    C1_serial_executor_amended.2.1 qinit 7 [[]] rfl,
    (C1_serial_executor_amended.2.2.1 (⟨0, [(4, [[]])], [], []⟩ : QState) 4 [[]] []
      rfl rfl).1,
    (C1_serial_executor_amended.2.2.2 (⟨1, [], [⟨9, [[]], true⟩], []⟩ : QState) 5 [[]]
      (by decide)).1⟩

/-! ## C2 -/

/-- C2.  In every state satisfying the catalog bijection invariant `CatInv`
(unique entity names, unique table names, `tableOwner[tableName] =
entityName` exactly for the records of `entities`, each record owned by the
single `scopeKey` stored in it), every operation preserves the invariant —
registration (fresh or same-scope re-registration with a table rename),
release/dispose, init and stop — and the invariant forces
`entities.size = tableOwner.size` and the exact live-set correspondence of
the two maps. -/
theorem C2_catalog_bijection :
    (∀ (k : String) (schema : Schema) (opts : ROpts) (st : PState), CatInv st →
      CatInv (registerEntityFor k schema opts st).1) ∧
    (∀ (en k : String) (st : PState), CatInv st → CatInv (releaseEntity en k st)) ∧
    (∀ (b : Bool) (st : PState), CatInv st → CatInv (initStep b st).1) ∧
    (∀ st : PState, CatInv st → CatInv (stopStep st)) ∧
    (∀ st : PState, CatInv (stopStepCore st)) ∧
    (∀ st : PState, CatInv st → st.entities.length = st.tableToEntityName.length) ∧
    (∀ (st : PState) (tn en : String), CatInv st →
      (lookupA st.tableToEntityName tn = some en ↔
        ∃ r, lookupA st.entities en = some r ∧ r.tableName = tn)) := by
  refine ⟨?_, ?_, ?_, ?_, catInv_stopStepCore, ?_, ?_⟩
  · intro k schema opts st h
    exact catInv_registerEntityFor k schema opts h
  · intro en k st h
    exact catInv_releaseEntity en k h
  · intro b st h
    exact catInv_initStep b h
  · intro st h
    exact catInv_stopStep h
  · intro st h
    exact catInvM_length h
  · intro st tn en h
    exact catInvM_table_iff h tn en

def recP : Rec := ⟨"P", "P", "P_e", "e", "t", schemaU, "P_t", false, 0⟩

def stRel : PState :=
  { emptyState with
    entities := [("P_e", recP)], tableToEntityName := [("P_t", "P_e")] }

/-- Witness for C2 at concrete states. -/
theorem C2_catalog_bijection_witness :
    CatInv stRel ∧
    stRel.entities.length = stRel.tableToEntityName.length ∧
    CatInv (releaseEntity "P_e" "P" stRel) ∧
    CatInv (registerEntityFor "Q" schemaU noOpts stRel).1 := by
  refine ⟨by decide, ?_, ?_, ?_⟩
  · exact C2_catalog_bijection.2.2.2.2.2.1 stRel (by decide)
  · exact C2_catalog_bijection.2.1 "P_e" "P" stRel (by decide)
  · exact C2_catalog_bijection.1 "Q" schemaU noOpts stRel (by decide)

/-! ## C3 -/

/-- The `sanitized || 'caller'` step of the resolver. -/
def sanitizeOrCaller (l : List Char) : List Char :=
  if (sanitize l).isEmpty then "caller".data else sanitize l

set_option maxRecDepth 40000

/-- C3.  The prefix of a raw scope key: (1) a trimmed raw key made solely of
`[A-Za-z0-9_]` characters (whose sanitisation — replacing every run of
characters outside the class by `_` — is itself) is its own prefix;
(2) otherwise the prefix is the sanitised string joined by `_` with the
first 6 characters of the SHA-1 hex digest of the raw key, a 6-character
hex string; (3)–(4) concretely, `"a_b"` resolves to itself while `"a-b"`
resolves to the hash-suffixed `"a_b_34fafd"`, so the two distinct raw keys
get different prefixes; (5) for a fixed raw key the memoised resolver
always yields `scopePfx key`, keeps the cache correct, and a second
resolution returns the identical prefix with an unchanged cache. -/
theorem C3_prefix_resolver :
    (∀ s : String, s.data ≠ [] → (∀ c ∈ s.data, isWordChar c = true) →
      scopePfx s = s) ∧
    (∀ s : String,
      (sanitizeOrCaller (jsTrim s.data) == jsTrim s.data &&
        isFullWordStr (jsTrim s.data)) = false →
      scopePfx s =
        ⟨sanitizeOrCaller (jsTrim s.data) ++ '_' :: (sha1hex ⟨jsTrim s.data⟩).take 6⟩ ∧
      ((sha1hex ⟨jsTrim s.data⟩).take 6).length = 6 ∧
      ∀ c ∈ (sha1hex ⟨jsTrim s.data⟩).take 6, isHexDigit c = true) ∧
    scopePfx "a_b" = "a_b" ∧
    (scopePfx "a-b" = "a_b_34fafd" ∧ scopePfx "a-b" ≠ scopePfx "a_b") ∧
    (∀ (c : List (String × String)) (k : String), CacheOk c →
      (getScopePfx c k).2 = scopePfx k ∧
      CacheOk (getScopePfx c k).1 ∧
      getScopePfx (getScopePfx c k).1 k = ((getScopePfx c k).1, (getScopePfx c k).2)) := by
  refine ⟨?_, ?_, by decide, by decide, ?_⟩
  · intro s hne hw
    exact scopePfx_of_word hne hw
  · intro s hcond
    refine ⟨?_, ?_, ?_⟩
    · unfold sanitizeOrCaller at hcond
      unfold scopePfx scopePfxList sanitizeOrCaller
      dsimp only
      rw [if_neg (by rw [hcond]; simp)]
    · rw [List.length_take, sha1hex_length]
      decide
    · intro c hc
      exact sha1hex_hex ⟨jsTrim s.data⟩ c (List.mem_of_mem_take hc)
  · intro c k hc
    exact ⟨(getScopePfx_cacheOk hc k).1, (getScopePfx_cacheOk hc k).2,
      getScopePfx_stable c k⟩

/-- Witness for C3: the canonical branch at `"caller9"`, the hash branch at
`"a.b"` (which sanitises to `"a_b"`), and the memo cache starting empty. -/
theorem C3_prefix_resolver_witness :
    scopePfx "caller9" = "caller9" ∧
    ((sha1hex ⟨jsTrim "a.b".data⟩).take 6).length = 6 ∧
    (getScopePfx [] "k").2 = scopePfx "k" ∧
    getScopePfx (getScopePfx [] "k").1 "k" =
      ((getScopePfx [] "k").1, (getScopePfx [] "k").2) := by
  refine ⟨C3_prefix_resolver.1 "caller9" (by decide) (by decide), ?_, ?_, ?_⟩
  · exact (C3_prefix_resolver.2.1 "a.b" (by decide)).2.1
  · exact (C3_prefix_resolver.2.2.2.2 [] "k" (by intro p hp; simp at hp)).1
  · exact (C3_prefix_resolver.2.2.2.2 [] "k" (by intro p hp; simp at hp)).2.2

/-! ## C4 -/

/-- C4 (amended).  `tableNameOf k base = scopePfx k ++ "_" ++ base`.  Two
raw scope keys whose *resolved prefixes* differ give distinct full table
names for every common base table.  The hypothesis on the prefixes is
needed because the prefix map itself is not injective on raw keys (keys
collapsing under trim, or a canonical key equal to another key's
hash-suffixed prefix; see the counterexample), so distinctness of the raw
keys alone does not suffice. -/
theorem C4_scoped_table_names (k1 k2 base : String)
    (hpfx : scopePfx k1 ≠ scopePfx k2) :
    tableNameOf k1 base ≠ tableNameOf k2 base := by
  intro h
  apply hpfx
  unfold tableNameOf at h
  rw [String.append_assoc, String.append_assoc] at h
  exact append_cancel_of_eq h

/-- C4 counterexample: two distinct raw keys with identical full table
names.  First pair: `"x"` and `"x "` — trimming makes their prefixes
collide.  Second pair: the canonical key `"a_b_34fafd"` and the key
`"a-b"`, whose hash-suffixed prefix is exactly `"a_b_34fafd"`. -/
theorem C4_scoped_table_names_cex :
    ("x" ≠ "x " ∧ tableNameOf "x" "users" = tableNameOf "x " "users") ∧
    ("a_b_34fafd" ≠ "a-b" ∧
      tableNameOf "a_b_34fafd" "users" = tableNameOf "a-b" "users") := by
  decide

/-- Witness for C4 at concrete keys, one canonical and one resolving
through the hash branch: their prefixes differ, so their table names do. -/
theorem C4_scoped_table_names_witness :
    scopePfx "a-b" ≠ scopePfx "c" ∧
    tableNameOf "a-b" "users" ≠ tableNameOf "c" "users" := by
  have h : scopePfx "a-b" ≠ scopePfx "c" := by decide
  exact ⟨h, C4_scoped_table_names "a-b" "c" "users" h⟩

/-! ## C5 -/

/-- C5.  Re-registering the same `(scopeKey, baseEntityName)` (same schema,
same name overrides) is idempotent: the second call succeeds through the
update branch and returns a handle with the same identity (`handleId`, the
very `EntityHandleImpl` object stored in the record) and identical
`entityName`/`tableName`; the catalog still holds exactly as many records
as after the first call (the entity's record was replaced in place); and
for the stored `dropTableOnDispose` flag an explicitly supplied option
overrides the stored value while an unspecified one preserves it. -/
theorem C5_reregistration_idempotent (k : String) (schema : Schema)
    (opts1 opts2 : ROpts) {st0 st1 st2 : PState} {r1 r2 : RegResult}
    (hInv : CatInv st0)
    (hn : opts2.entityName = opts1.entityName) (ht : opts2.tableName = opts1.tableName)
    (h1 : registerEntityFor k schema opts1 st0 = (st1, Except.ok r1))
    (h2 : registerEntityFor k schema opts2 st1 = (st2, Except.ok r2)) :
    r2.entityName = r1.entityName ∧ r2.tableName = r1.tableName ∧
    r2.handleId = r1.handleId ∧
    st2.entities.length = st1.entities.length ∧
    ∃ rec1 rec2, lookupA st1.entities r1.entityName = some rec1 ∧
      lookupA st2.entities r1.entityName = some rec2 ∧
      rec2.dropTableOnDispose = opts2.dropTableOnDispose.getD rec1.dropTableOnDispose := by
  unfold registerEntityFor at h1
  cases hplan1 : mkPlan (getScopePfx st0.scopePfxCache k).2 schema opts1 with
  | error e =>
    rw [hplan1] at h1
    injection h1 with ha hb
    exact absurd hb (by simp)
  | ok plan1 =>
    rw [hplan1] at h1
    have h1b : regBody k (getScopePfx st0.scopePfxCache k).2 plan1 schema opts1
        { st0 with scopePfxCache := (getScopePfx st0.scopePfxCache k).1 } =
        (st1, Except.ok r1) := h1
    have hInvC : CatInv ({ st0 with
        scopePfxCache := (getScopePfx st0.scopePfxCache k).1 } : PState) := hInv
    have hst1 : (regBody k (getScopePfx st0.scopePfxCache k).2 plan1 schema opts1
        { st0 with scopePfxCache := (getScopePfx st0.scopePfxCache k).1 }).1 = st1 := by
      rw [h1b]
    have hInv1 : CatInv st1 := hst1 ▸ catInv_regBody hInvC
    have main : ∀ rec1 : Rec,
        lookupA st1.entities plan1.entityName = some rec1 →
        rec1.scopeKey = k →
        rec1.handleId = r1.handleId →
        st1.scopePfxCache = (getScopePfx st0.scopePfxCache k).1 →
        r1.entityName = plan1.entityName →
        r1.tableName = plan1.tableName →
        (r2.entityName = r1.entityName ∧ r2.tableName = r1.tableName ∧
          r2.handleId = r1.handleId ∧
          st2.entities.length = st1.entities.length ∧
          ∃ rec1 rec2, lookupA st1.entities r1.entityName = some rec1 ∧
            lookupA st2.entities r1.entityName = some rec2 ∧
            rec2.dropTableOnDispose =
              opts2.dropTableOnDispose.getD rec1.dropTableOnDispose) := by
      intro rec1 hrec1 hsc1 hhid1 hcache1 hren1 hrtn1
      have hgp : getScopePfx st1.scopePfxCache k =
          (st1.scopePfxCache, (getScopePfx st0.scopePfxCache k).2) := by
        rw [hcache1]
        exact getScopePfx_stable st0.scopePfxCache k
      unfold registerEntityFor at h2
      rw [hgp] at h2
      dsimp only at h2
      rw [mkPlan_congr_names hn ht, hplan1] at h2
      have h2b : regBody k (getScopePfx st0.scopePfxCache k).2 plan1 schema opts2
          { st1 with scopePfxCache := st1.scopePfxCache } = (st2, Except.ok r2) := h2
      have hInv1b : CatInv ({ st1 with scopePfxCache := st1.scopePfxCache } : PState) :=
        hInv1
      have hrec1b : lookupA ({ st1 with
          scopePfxCache := st1.scopePfxCache } : PState).entities plan1.entityName =
          some rec1 := hrec1
      obtain ⟨hr2, hcache2, htab2, rec2, hrec2, hsc2, hen2, htn2, hhid2, hdrop2, hlen2⟩ :=
        regBody_ok_update hInv1b hrec1b h2b
      refine ⟨?_, ?_, ?_, ?_, rec1, rec2, ?_, ?_, hdrop2⟩
      · rw [hr2, hren1]
      · rw [hr2, hrtn1]
      · rw [hr2]
        exact hhid1
      · exact hlen2
      · rw [hren1]
        exact hrec1
      · rw [hren1]
        exact hrec2
    cases hlk1 : lookupA st0.entities plan1.entityName with
    | none =>
      have hlk1b : lookupA ({ st0 with
          scopePfxCache := (getScopePfx st0.scopePfxCache k).1 } : PState).entities
          plan1.entityName = none := hlk1
      obtain ⟨hr1, hcache1, htab1, rec1, hrec1, hsc1, hen1, htn1, hhid1, hdrop1, hlen1⟩ :=
        regBody_ok_new hlk1b h1b
      exact main rec1 hrec1 hsc1 hhid1 hcache1 (by rw [hr1]) (by rw [hr1])
    | some rec0 =>
      have hlk1b : lookupA ({ st0 with
          scopePfxCache := (getScopePfx st0.scopePfxCache k).1 } : PState).entities
          plan1.entityName = some rec0 := hlk1
      obtain ⟨hr1, hcache1, htab1, rec1, hrec1, hsc1, hen1, htn1, hhid1, hdrop1, hlen1⟩ :=
        regBody_ok_update hInvC hlk1b h1b
      exact main rec1 hrec1 hsc1 (by rw [hhid1, hr1]) hcache1 (by rw [hr1]) (by rw [hr1])

/-- Witness for C5: registering schema `u` twice for scope `"P"` starting
from the empty state; the second call returns the same handle id `0` and
the same names, and the catalog still has one record. -/
theorem C5_reregistration_idempotent_witness :
    (registerEntityFor "P" schemaU noOpts emptyState).2 =
      Except.ok ⟨"P_u", "P_u", 0⟩ ∧
    (registerEntityFor "P" schemaU noOpts
      (registerEntityFor "P" schemaU noOpts emptyState).1).2 =
      Except.ok ⟨"P_u", "P_u", 0⟩ ∧
    (registerEntityFor "P" schemaU noOpts
      (registerEntityFor "P" schemaU noOpts emptyState).1).1.entities.length =
      (registerEntityFor "P" schemaU noOpts emptyState).1.entities.length := by
  have h1 : registerEntityFor "P" schemaU noOpts emptyState =
      ((registerEntityFor "P" schemaU noOpts emptyState).1,
        Except.ok ⟨"P_u", "P_u", 0⟩) := by decide
  have h2 : registerEntityFor "P" schemaU noOpts
      (registerEntityFor "P" schemaU noOpts emptyState).1 =
      ((registerEntityFor "P" schemaU noOpts
        (registerEntityFor "P" schemaU noOpts emptyState).1).1,
        Except.ok ⟨"P_u", "P_u", 0⟩) := by decide
  have hc := C5_reregistration_idempotent "P" schemaU noOpts noOpts
    (by decide) rfl rfl h1 h2
  refine ⟨?_, ?_, hc.2.2.2.1⟩
  · rw [h1]
  · rw [h2]

/-! ## C6 -/

/-- C6 (amended).  With the names of the registration resolving to `plan`,
`registerEntityFor` fails with `TableNameConflict` exactly when the
computed full table name is already mapped in the table-owner map to a
different entity name *and* the computed entity name is not claimed by a
different scope — in the latter case the earlier check fires first and the
call fails with `EntityConflict` instead (see the counterexample).  A call
failing the table check records nothing: both catalog maps are exactly as
before. -/
theorem C6_table_conflict (k : String) (schema : Schema) (opts : ROpts)
    (st0 : PState) (plan : Plan)
    (hplan : mkPlan (getScopePfx st0.scopePfxCache k).2 schema opts = Except.ok plan) :
    ((registerEntityFor k schema opts st0).2 = Except.error MErr.tableNameConflict ↔
      ((∀ r, lookupA st0.entities plan.entityName = some r → r.scopeKey = k) ∧
        ∃ o, lookupA st0.tableToEntityName plan.tableName = some o ∧
          o ≠ plan.entityName)) ∧
    ((registerEntityFor k schema opts st0).2 = Except.error MErr.tableNameConflict →
      (registerEntityFor k schema opts st0).1.entities = st0.entities ∧
      (registerEntityFor k schema opts st0).1.tableToEntityName =
        st0.tableToEntityName) := by
  rw [registerEntityFor_eq_regBody hplan]
  constructor
  · rw [regBody_tableConflict_iff]
    constructor
    · rintro ⟨a, b⟩
      exact ⟨entityConflictB_false_iff.mp a, tableConflictB_true_iff.mp b⟩
    · rintro ⟨a, b⟩
      exact ⟨entityConflictB_false_iff.mpr a, tableConflictB_true_iff.mpr b⟩
  · intro herr
    rw [regBody_error_fst herr]
    exact ⟨rfl, rfl⟩

def recOwner : Rec := ⟨"A", "A", "A_e", "e", "B_users", schemaU, "A_B_users", false, 0⟩

/-- A state in which the table `"B_users"` is owned by the entity
`"A_e2"`. -/
def stTbl : PState :=
  { emptyState with
    entities := [("A_e2", ⟨"A", "A", "A_e2", "e2", "x", schemaU, "B_users", false, 0⟩)]
    tableToEntityName := [("B_users", "A_e2")]
    nextHandle := 1 }

def optsTbl : ROpts := ⟨none, none, none, some "users"⟩

/-- Witness for C6: scope `"B"` registering entity `u` with the explicit
base table `"users"` resolves to table `"B_users"`, already owned by
`"A_e2"`; the call fails with `TableNameConflict` and records nothing. -/
theorem C6_table_conflict_witness :
    (registerEntityFor "B" schemaU optsTbl stTbl).2 =
      Except.error MErr.tableNameConflict ∧
    (registerEntityFor "B" schemaU optsTbl stTbl).1.entities = stTbl.entities := by
  have h := C6_table_conflict "B" schemaU optsTbl stTbl
    ⟨"B_u", "B_users", "u", "users"⟩ (by decide)
  have herr : (registerEntityFor "B" schemaU optsTbl stTbl).2 =
      Except.error MErr.tableNameConflict := by
    apply h.1.mpr
    constructor
    · intro r hr
      rw [show lookupA stTbl.entities "B_u" = none from by decide] at hr
      exact Option.noConfusion hr
    · exact ⟨"A_e2", by decide, by decide⟩
  exact ⟨herr, (h.2 herr).1⟩

def recBz : Rec := ⟨"B_z", "B_z", "B_z_w", "w", "w_t", schemaU, "B_z_w_t", false, 0⟩

def recBother : Rec := ⟨"B", "B", "B_other", "other", "t2", schemaU, "B_t2", false, 1⟩

/-- A reachable-shape state in which the entity name `"B_z_w"` is owned by
scope `"B_z"` and the table `"B_t2"` is owned by the entity `"B_other"`. -/
def stBoth : PState :=
  { emptyState with
    entities := [("B_z_w", recBz), ("B_other", recBother)]
    tableToEntityName := [("B_z_w_t", "B_z_w"), ("B_t2", "B_other")]
    nextHandle := 2 }

def optsCex : ROpts := ⟨none, none, some "z_w", some "t2"⟩

/-- C6 counterexample.  Scope `"B"` registers with base entity name
`"z_w"` and base table `"t2"`: the computed table `"B_t2"` is already
mapped to the different entity `"B_other"` — the claim's "exactly when"
condition holds — yet the call does not fail with `TableNameConflict`: the
computed entity name `"B_z_w"` is owned by scope `"B_z"`, so the earlier
check fails first with `EntityConflict`. -/
theorem C6_table_conflict_cex :
    CatInv stBoth ∧
    (∃ o, lookupA stBoth.tableToEntityName "B_t2" = some o ∧ o ≠ "B_z_w") ∧
    mkPlan (getScopePfx stBoth.scopePfxCache "B").2 schemaU optsCex =
      Except.ok ⟨"B_z_w", "B_t2", "z_w", "t2"⟩ ∧
    (registerEntityFor "B" schemaU optsCex stBoth).2 =
      Except.error MErr.entityConflict := by
  refine ⟨by decide, ⟨"B_other", by decide, by decide⟩, by decide, by decide⟩

/-! ## C7 -/

/-- C7.  `rewriteSchema` at the heap level: rewriting the descriptor in cell
`ref` allocates a fresh cell (index `store.length ≠ ref`), leaves every
pre-existing cell — in particular the input — bit-for-bit unchanged, and
the fresh cell holds a copy of the input metadata whose name/className are
the namespaced entity name, whose tableName/collection are the namespaced
table name, whose `class`/`prototype` identity bindings are stripped, and
whose remaining payload is copied verbatim; so a descriptor shared across
registrations under different scopes is never mutated or
cross-contaminated. -/
theorem C7_rewrite_schema_fresh (store : List Schema) (ref : Nat) (en tn : String)
    (h : ref < store.length) :
    ∃ m, store[ref]? = some m ∧
      rewriteSchemaIn store ref en tn = (store ++ [rewriteMeta m en tn], store.length) ∧
      (∀ i, i < store.length → (store ++ [rewriteMeta m en tn])[i]? = store[i]?) ∧
      (store ++ [rewriteMeta m en tn])[store.length]? = some (rewriteMeta m en tn) ∧
      ref ≠ store.length ∧
      (rewriteMeta m en tn).name = some en ∧
      (rewriteMeta m en tn).className = some en ∧
      (rewriteMeta m en tn).tableName = some tn ∧
      (rewriteMeta m en tn).collection = some tn ∧
      (rewriteMeta m en tn).hasClass = false ∧
      (rewriteMeta m en tn).hasPrototype = false ∧
      (rewriteMeta m en tn).payload = m.payload := by
  refine ⟨store[ref], List.getElem?_eq_getElem h, ?_, ?_, ?_, by omega,
    rfl, rfl, rfl, rfl, rfl, rfl, rfl⟩
  · unfold rewriteSchemaIn
    rw [List.getElem?_eq_getElem h]
  · intro i hi
    exact List.getElem?_append_left hi
  · exact List.getElem?_concat_length store (rewriteMeta store[ref] en tn)

/-- Witness for C7: a two-cell store, rewriting cell 0. -/
theorem C7_rewrite_schema_fresh_witness :
    rewriteSchemaIn [schemaU, schemaU] 0 "A_u" "A_u_t" =
      ([schemaU, schemaU, rewriteMeta schemaU "A_u" "A_u_t"], 2) ∧
    [schemaU, schemaU, rewriteMeta schemaU "A_u" "A_u_t"][0]? = some schemaU := by
  obtain ⟨m, hm, heq, hframe, _, _, _⟩ :=
    C7_rewrite_schema_fresh [schemaU, schemaU] 0 "A_u" "A_u_t" (by decide)
  have hms : m = schemaU := by
    rw [show ([schemaU, schemaU] : List Schema)[0]? = some schemaU from rfl] at hm
    exact (Option.some.inj hm).symm
  subst hms
  exact ⟨heq, rfl⟩

/-! ## C8 -/

/-- C8 (amended).  Disposal with the engine absent removes the record from
both catalog maps; the table name is parked in `pendingDropTables` only if
the record's `dropTableOnDispose` flag is set — with the flag clear the
table name is forgotten, not remembered (this conditions the original
claim's unconditional parking; see the counterexample).  On the next
successful initialisation every parked name is drained: a guarded drop is
traced for each and `pendingDropTables` ends empty. -/
theorem C8_pending_drops (en k : String) (rec0 : Rec) (st : PState)
    (hlk : lookupA st.entities en = some rec0)
    (hsc : rec0.scopeKey = k)
    (horm : st.ormInstance = false) :
    (releaseEntity en k st).entities = delA st.entities en ∧
    (releaseEntity en k st).tableToEntityName =
      delA st.tableToEntityName rec0.tableName ∧
    (rec0.dropTableOnDispose = true →
      (releaseEntity en k st).pendingDropTables =
        addSet st.pendingDropTables rec0.tableName ∧
      rec0.tableName ∈ (releaseEntity en k st).pendingDropTables) ∧
    (rec0.dropTableOnDispose = false →
      (releaseEntity en k st).pendingDropTables = st.pendingDropTables) ∧
    (∀ st2 : PState, st2.initDone = false →
      (initStep true st2).1.pendingDropTables = [] ∧
      (initStep true st2).1.trace =
        st2.trace ++ st2.pendingDropTables.map Effect.dropTable) := by
  refine ⟨?_, ?_, ?_, ?_, ?_⟩
  · cases hd : rec0.dropTableOnDispose <;>
      simp [releaseEntity, hlk, hsc, horm, hd]
  · cases hd : rec0.dropTableOnDispose <;>
      simp [releaseEntity, hlk, hsc, horm, hd]
  · intro hd
    constructor
    · simp [releaseEntity, hlk, hsc, horm, hd]
    · have hp : (releaseEntity en k st).pendingDropTables =
          addSet st.pendingDropTables rec0.tableName := by
        simp [releaseEntity, hlk, hsc, horm, hd]
      rw [hp]
      exact mem_addSet_self st.pendingDropTables rec0.tableName
  · intro hd
    simp [releaseEntity, hlk, hsc, horm, hd]
  · intro st2 h2
    refine ⟨?_, ?_⟩ <;> simp [initStep, h2]

/-- The record of `stRel` with `dropTableOnDispose` set. -/
def recPD : Rec := ⟨"P", "P", "P_e", "e", "t", schemaU, "P_t", true, 0⟩

/-- `stRel` with the drop flag set on its one record. -/
def stRelD : PState :=
  { emptyState with
    entities := [("P_e", recPD)], tableToEntityName := [("P_t", "P_e")] }

/-- An uninitialised state with one parked table. -/
def stPend : PState := { emptyState with pendingDropTables := ["P_t"] }

/-- Witness for C8: disposing the flag-set record of `stRelD` parks its
table; a successful init on `stPend` drains the parked table. -/
theorem C8_pending_drops_witness :
    (releaseEntity "P_e" "P" stRelD).pendingDropTables = ["P_t"] ∧
    (initStep true stPend).1.pendingDropTables = [] ∧
    (initStep true stPend).1.trace = [Effect.dropTable "P_t"] := by
  obtain ⟨h1, h2, hpark, hnop, hdrain⟩ :=
    C8_pending_drops "P_e" "P" recPD stRelD rfl rfl rfl
  obtain ⟨hd1, hd2⟩ := hdrain stPend rfl
  refine ⟨?_, hd1, ?_⟩
  · rw [(hpark rfl).1]
    decide
  · rw [hd2]
    decide

/-- C8 counterexample.  In `stRel` the engine is absent and the record's
`dropTableOnDispose` flag is clear: disposal removes the entity from both
catalog maps exactly as the claim says, but its table name is NOT
remembered — `pendingDropTables` stays empty, so no drop will ever run for
it. -/
theorem C8_pending_drops_cex :
    stRel.ormInstance = false ∧
    lookupA stRel.entities "P_e" = some recP ∧
    recP.scopeKey = "P" ∧
    (releaseEntity "P_e" "P" stRel).entities = [] ∧
    (releaseEntity "P_e" "P" stRel).tableToEntityName = [] ∧
    (releaseEntity "P_e" "P" stRel).pendingDropTables = [] := by
  decide

/-! ## C9 -/

/-- C9.  `migrateFor` substitutes the scope-prefixed migrations table name
(prefix, `"_"`, then the base table with an already-present prefix
stripped first) into the configuration in force while the migrator runs,
and the `finally` path restores exactly the previous configuration in the
final state whether the run succeeds (`migOk = true`) or fails
(`migOk = false`): the final configuration never depends on the
outcome. -/
theorem C9_migrate_config_restored (k : String) (opts : MigrateOpts) (migOk : Bool)
    (st0 : PState) :
    (migrateFor k opts migOk st0).1.migrationsCfg = st0.migrationsCfg ∧
    (migrateFor k opts migOk st0).2.2.migrationsCfg =
      ⟨some ((getScopePfx st0.scopePfxCache k).2 ++ "_" ++
          stripPfx ((mergeMig st0.migrationsCfg
              (opts.migrations.getD ⟨none, none⟩)).tableName.getD
            "mikro_orm_migrations") (getScopePfx st0.scopePfxCache k).2),
        (mergeMig st0.migrationsCfg (opts.migrations.getD ⟨none, none⟩)).payload⟩ ∧
    ((migrateFor k opts migOk st0).2.1 = Except.ok () ↔ migOk = true) ∧
    (migrateFor k opts false st0).1.migrationsCfg =
      (migrateFor k opts true st0).1.migrationsCfg := by
  refine ⟨rfl, rfl, ?_, rfl⟩
  cases migOk <;> simp [migrateFor]

/-! ## C10 -/

/-- C10 (amended).  `stop` of the provider under specification (part_008)
invokes and clears every registered teardown hook, closes the engine if
present, and wipes the engine-bound fields (config presence, engine
instance, init memo) — but it leaves the entity catalog intact: both
`entities` and `tableToEntityName` are preserved, not cleared (see the
counterexample).  The clearing behaviour the claim describes is that of
the older core.ts variant, `stopStepCore`, which does empty both maps. -/
theorem C10_stop_behaviour (st : PState) :
    (stopStep st).ormCloseCancels = 0 ∧
    (stopStep st).configPresent = false ∧
    (stopStep st).ormInstance = false ∧
    (stopStep st).initDone = false ∧
    (stopStep st).trace = st.trace ++
      List.replicate st.ormCloseCancels Effect.cancelHook ++
      (if st.ormInstance then [Effect.closeOrm] else []) ∧
    (stopStep st).entities = st.entities ∧
    (stopStep st).tableToEntityName = st.tableToEntityName ∧
    (stopStepCore st).entities = [] ∧
    (stopStepCore st).tableToEntityName = [] :=
  ⟨rfl, rfl, rfl, rfl, rfl, rfl, rfl, rfl, rfl⟩

/-- C10 counterexample.  Stopping `stRel` (one live registration) leaves
the catalog non-empty: the part_008 `stop` does not clear `entities` /
`tableToEntityName`, contradicting the claim that after `stop()` both maps
are empty. -/
theorem C10_stop_behaviour_cex :
    (stopStep stRel).ormInstance = false ∧
    (stopStep stRel).entities = [("P_e", recP)] ∧
    (stopStep stRel).tableToEntityName = [("P_t", "P_e")] ∧
    (stopStep stRel).entities ≠ [] := by
  decide

end Pluxel